import Mathlib

/-!
Verification of the chunked blob-writing layer of the gondola repository
(leveldb blobstore driver).  Two writer variants appear in the source:

* `src/blobstore/driver/leveldb/wfile.go` — the batched writer using the
  pluggable fixed-size chunker, a leveldb write batch and a writer pool
  (modelled below with the `W`-prefixed definitions);
* `src/unnamed/part_002` — the older, self-contained variant whose chunking
  loop is inlined and whose chunk puts are immediate (modelled below with the
  `0`-suffixed definitions).

Bytes are modelled as natural numbers, byte strings as `List Nat`.  The SHA-1
hash (Go standard library, external to the repository) is an abstract
parameter `H : Bytes → Bytes`; properties that in reality rest on SHA-1 being
a fixed-width collision-resistant digest take the corresponding hypotheses
(`∀ d, (H d).length = 20`, injectivity) explicitly.  The leveldb engine is
external too: the chunk and file key spaces are modelled as explicit
key-to-value maps threaded through every operation.
-/

namespace Gondola

abbrev Bytes := List Nat

/-- `chunkSize` from both writer variants: 256 KiB. -/
def chunkSize : Nat := 256 * 1024

/-- `sha1.Size` from the Go standard library: 20 bytes. -/
def sha1Size : Nat := 20

/-- `binary.LittleEndian.PutUint32`: the four little-endian bytes of
`n mod 2^32`. -/
def putUint32 (n : Nat) : Bytes :=
  [n % 256, n / 256 % 256, n / 65536 % 256, n / 16777216 % 256]

/-- Little-endian read of the first four bytes (missing bytes read as 0),
as `binary.LittleEndian.Uint32` does on a 4-byte view. -/
def getUint32 (b : Bytes) : Nat :=
  b.getD 0 0 + 256 * b.getD 1 0 + 65536 * b.getD 2 0 + 16777216 * b.getD 3 0

/-- The chunk-list File Index Record built by `Close` in both variants:
chunk count as uint32, then for each recorded hash its length as uint32
followed by its bytes.  (The per-entry uint32 is `uint32(len(chunk))` where
`chunk` ranges over the stored hashes.) -/
def fileRecord (chunks : List Bytes) : Bytes :=
  putUint32 chunks.length ++ (chunks.map (fun c => putUint32 c.length ++ c)).flatten

/-- A pure key-value space of the engine (one of `drv.chunks` / `drv.files`). -/
abbrev Store := Bytes → Option Bytes

def storePut (s : Store) (k v : Bytes) : Store :=
  fun k' => if k' = k then some v else s k'

def emptyStore : Store := fun _ => none

/-! ## Embedding of `src/unnamed/part_002` (inline-chunker variant)

The driver's two key spaces are carried inside the `WFile0` state.  The
`buf`/`offset` pair of the Go struct is modelled by `acc`, the filled prefix
`buf[:offset]` (the tail of `buf` past `offset` is never read by the Go
code). -/

structure WFile0 where
  chunksSpace : Store
  filesSpace : Store
  id : Bytes
  acc : Bytes
  chunks : List Bytes

/-- `wfile.writeChunk` of part_002: hash the accumulated bytes, reset the
accumulator, skip the put when the hash is already present, store the chunk
otherwise, and record the hash in the session's ordered chunk list either
way. -/
def writeChunk0 (H : Bytes → Bytes) (f : WFile0) : WFile0 :=
  let data := f.acc
  let hash := H data
  match f.chunksSpace hash with
  | some _ => { f with acc := [], chunks := f.chunks ++ [hash] }
  | none =>
      { f with acc := [], chunks := f.chunks ++ [hash],
               chunksSpace := storePut f.chunksSpace hash data }

/-- `wfile.Write` of part_002: repeatedly copy `min(chunkSize - offset, len p)`
bytes into the buffer and emit a chunk whenever the buffer fills up to
`chunkSize`.  The `c = 0` guard is unreachable from reachable states (the
accumulator is always shorter than `chunkSize` when the loop runs; the Go
loop would not terminate there). -/
def write0 (H : Bytes → Bytes) (f : WFile0) (p : Bytes) : WFile0 :=
  if hp : p = [] then f
  else
    let c := min (chunkSize - f.acc.length) p.length
    if hc : c = 0 then f
    else
      let f1 : WFile0 := { f with acc := f.acc ++ p.take c }
      let f2 := if f1.acc.length = chunkSize then writeChunk0 H f1 else f1
      write0 H f2 (p.drop c)
termination_by p.length
decreasing_by
  simp only [List.length_drop]
  have hp' : 0 < p.length := List.length_pos.mpr hp
  omega

/-- `wfile.Close` of part_002: inline the data when no chunk boundary was
ever completed, otherwise flush the remainder through `writeChunk` and write
the chunk-list record under the file identifier. -/
def close0 (H : Bytes → Bytes) (f : WFile0) : WFile0 :=
  if 0 < f.acc.length ∧ f.chunks = [] then
    { f with filesSpace := storePut f.filesSpace f.id (putUint32 0 ++ f.acc) }
  else
    let f1 := if 0 < f.acc.length then writeChunk0 H f else f
    { f1 with filesSpace := storePut f1.filesSpace f1.id (fileRecord f1.chunks) }

/-- `newWFile` of part_002: a fresh session over the driver's key spaces. -/
def newWFile0 (cS fS : Store) (id : Bytes) : WFile0 :=
  { chunksSpace := cS, filesSpace := fS, id := id, acc := [], chunks := [] }

/-- One full write session of part_002: `write(B)` then `close()`. -/
def run0 (H : Bytes → Bytes) (cS fS : Store) (id : Bytes) (B : Bytes) : WFile0 :=
  close0 H (write0 H (newWFile0 cS fS id) B)

/-! ## Reference chunk decomposition -/

/-- The complete `chunkSize`-sized blocks of a byte sequence, in order. -/
def fullBlocks (B : Bytes) : List Bytes :=
  if h : chunkSize ≤ B.length then
    B.take chunkSize :: fullBlocks (B.drop chunkSize)
  else []
termination_by B.length
decreasing_by
  simp only [List.length_drop]
  have : 0 < chunkSize := by decide
  omega

/-- The trailing bytes of a byte sequence past its last complete block. -/
def tailRem (B : Bytes) : Bytes :=
  if h : chunkSize ≤ B.length then tailRem (B.drop chunkSize) else B
termination_by B.length
decreasing_by
  simp only [List.length_drop]
  have : 0 < chunkSize := by decide
  omega

/-- All chunks a full session processes: the complete blocks plus the final
remainder chunk when one exists. -/
def chunkList (B : Bytes) : List Bytes :=
  fullBlocks B ++ (if tailRem B = [] then [] else [tailRem B])

/-- Folding the chunk callback over a list of ready-made blocks: the
canonical form of the write loop's effect. -/
def processBlocks0 (H : Bytes → Bytes) (f : WFile0) (bs : List Bytes) : WFile0 :=
  bs.foldl (fun g c => writeChunk0 H { g with acc := c }) f

/-- A chunk space is content-consistent when every stored value sits under
its own hash; the invariant the content-addressed store maintains. -/
def consistent (H : Bytes → Bytes) (s : Store) : Prop :=
  ∀ k v, s k = some v → k = H v

/-- The canonical write-session state after having consumed exactly the byte
sequence `X` from a start state `f`. -/
def canon0 (H : Bytes → Bytes) (f : WFile0) (X : Bytes) : WFile0 :=
  { processBlocks0 H { f with acc := [] } (fullBlocks X) with acc := tailRem X }

/-- Feeding pieces one by one, as a sequence of `Write` calls. -/
def writeMany0 (H : Bytes → Bytes) (f : WFile0) (pieces : List Bytes) : WFile0 :=
  pieces.foldl (write0 H) f

/-- Modelled from the spec: the read-path entry parser of the File Index
Record (the reader is not under src/).  Reads `n` repetitions of a uint32
length followed by a 20-byte hash, per the layout in spec section 6. -/
def specEntries : Nat → Bytes → List (Nat × Bytes)
  | 0, _ => []
  | n + 1, b => (getUint32 b, (b.drop 4).take 20) :: specEntries n (b.drop 24)

/-- Modelled from the spec: read-path reconstruction exactly as the spec
words it — when `chunkCount` is zero the rest is the inline payload,
otherwise concatenate the first `length` bytes of each referenced chunk
fetched from the chunk space in listed order. -/
def specReconstruct (s : Store) (r : Bytes) : Bytes :=
  if getUint32 r = 0 then r.drop 4
  else ((specEntries (getUint32 r) (r.drop 4)).map
    (fun e => ((s e.2).getD []).take e.1)).flatten

/-- Reconstruction as the writer's encoding actually requires: concatenate
each referenced chunk's full stored bytes (the per-entry uint32 is the hash
length, not the chunk data length). -/
def fullReconstruct (s : Store) (r : Bytes) : Bytes :=
  if getUint32 r = 0 then r.drop 4
  else ((specEntries (getUint32 r) (r.drop 4)).map
    (fun e => (s e.2).getD [])).flatten

/-- An injective stand-in for the digest with 20-byte output, used to
instantiate abstract-hash hypotheses at concrete inputs. -/
def hashE (d : Bytes) : Bytes := Encodable.encode d :: List.replicate 19 0

/-! ## Embedding of `src/blobstore/driver/leveldb/wfile.go` (batched variant)

The pluggable pieces that are not under src/ — the fixed-size chunker from
`gnd.la/blobstore/chunk/fixed` and the writer pool from
`gnd.la/internal/pool` — are modelled from the spec and marked as such. -/

/-- Result of `drv.chunks.Get`: goleveldb returns the value with a nil
error, `ErrNotFound`, or another engine error (modelled by a numeric
code). -/
inductive GetRes where
  | found (v : Bytes)
  | missing
  | fail (e : Nat)

/-- Errors a write session can return: the explicitly named
`errors.New("hash collision")` from `WriteChunk`, or an engine error
propagated from a put or batched write. -/
inductive WErr where
  | hashCollision
  | engine (e : Nat)
deriving DecidableEq

/-- Engine events in execution order: one batched write against the chunk
space, or one put against the files space. -/
inductive Ev where
  | chunkWrite (b : List (Bytes × Bytes))
  | filePut (k v : Bytes)

def isFilePut : Ev → Bool
  | .filePut _ _ => true
  | .chunkWrite _ => false

/-- The leveldb driver as one write session sees it: the two key spaces,
fault schedules for the fallible engine calls (each batched chunk write and
each files put consumes one entry; an exhausted schedule means success),
and the event log. -/
structure WDrv where
  chunks : Bytes → GetRes
  files : Store
  wfaults : List (Option Nat)
  pfaults : List (Option Nat)
  log : List Ev

/-- Applying a leveldb batch: later puts to the same key win. -/
def applyBatch (s : Bytes → GetRes) (b : List (Bytes × Bytes)) : Bytes → GetRes :=
  b.foldl (fun t p => fun k => if k = p.1 then .found p.2 else t k) s

/-- `f.drv.chunks.Write(f.batch, nil)`: one batched write; on success the
batch contents become visible to later gets; a failed write is modelled as
leaving the store unchanged. -/
def dbWrite (d : WDrv) (b : List (Bytes × Bytes)) : WDrv × Option WErr :=
  match d.wfaults with
  | some e :: rest =>
      ({ d with wfaults := rest, log := d.log ++ [.chunkWrite b] },
        some (.engine e))
  | none :: rest =>
      ({ d with chunks := applyBatch d.chunks b, wfaults := rest,
                log := d.log ++ [.chunkWrite b] }, none)
  | [] =>
      ({ d with chunks := applyBatch d.chunks b,
                log := d.log ++ [.chunkWrite b] }, none)

/-- `f.drv.files.Put(key, value, nil)`: one files-space put; a failed put is
modelled as leaving the files space unchanged. -/
def filesPut (d : WDrv) (k v : Bytes) : WDrv × Option WErr :=
  match d.pfaults with
  | some e :: rest =>
      ({ d with pfaults := rest, log := d.log ++ [.filePut k v] },
        some (.engine e))
  | none :: rest =>
      ({ d with files := storePut d.files k v, pfaults := rest,
                log := d.log ++ [.filePut k v] }, none)
  | [] =>
      ({ d with files := storePut d.files k v,
                log := d.log ++ [.filePut k v] }, none)

/-- The `wfile` struct of wfile.go: driver, destination identifier, ordered
chunk-hash list, pending batch with its byte counter, and the fixed-size
chunker's accumulated remainder (`chunk.Chunker` state, spec-modelled). -/
structure WFile where
  drv : WDrv
  id : Bytes
  chunks : List Bytes
  batch : List (Bytes × Bytes)
  batchSize : Nat
  rem : Bytes

/-- `maxBatchSize` from wfile.go: 4 MiB. -/
def maxBatchSize : Nat := 4 * (1 <<< 20)

/-- `wfile.flushBatch`: issue the batched write, then clear the buffer and
counter unconditionally, returning the write's error. -/
def flushBatch (f : WFile) : WFile × Option WErr :=
  let r := dbWrite f.drv f.batch
  ({ f with drv := r.1, batchSize := 0, batch := [] }, r.2)

/-- `wfile.WriteChunk`: hash the chunk and record the hash in the session's
chunk list; a found chunk of equal length needs no storing, a found chunk of
different length is a fatal hash collision; on any other get outcome
(not-found or an engine error, which the code deliberately ignores) enqueue
the chunk and flush once the batch reaches `maxBatchSize`. -/
def WriteChunk (H : Bytes → Bytes) (f : WFile) (data : Bytes) :
    WFile × Option WErr :=
  let hash := H data
  let f1 : WFile := { f with chunks := f.chunks ++ [hash] }
  match f1.drv.chunks hash with
  | .found ch =>
      if ch.length ≠ data.length then (f1, some .hashCollision)
      else (f1, none)
  | _ =>
      let f2 : WFile :=
        { f1 with
          batch := f1.batch ++ [(hash, data)],
          batchSize := f1.batchSize + data.length }
      if maxBatchSize ≤ f2.batchSize then flushBatch f2 else (f2, none)

/-- Modelled from the spec: the session's `Write` through the fixed-size
Chunk Boundary Source (`gnd.la/blobstore/chunk/fixed`, not under src/):
accumulate fed bytes and emit each complete 256 KiB chunk to the writer's
`WriteChunk` callback, aborting on the callback's error.  The `c = 0` guard
is unreachable from reachable states. -/
def wWrite (H : Bytes → Bytes) (f : WFile) (p : Bytes) : WFile × Option WErr :=
  if hp : p = [] then (f, none)
  else
    let c := min (chunkSize - f.rem.length) p.length
    if hc : c = 0 then (f, none)
    else
      let f1 : WFile := { f with rem := f.rem ++ p.take c }
      if f1.rem.length = chunkSize then
        match WriteChunk H { f1 with rem := [] } f1.rem with
        | (f2, some e) => (f2, some e)
        | (f2, none) => wWrite H f2 (p.drop c)
      else wWrite H f1 (p.drop c)
termination_by p.length
decreasing_by
  · simp only [List.length_drop]
    have hp' : 0 < p.length := List.length_pos.mpr hp
    omega
  · simp only [List.length_drop]
    have hp' : 0 < p.length := List.length_pos.mpr hp
    omega

/-- Modelled from the spec: `Chunker.Flush` runs the remainder through the
writer's chunk callback and clears the accumulation. -/
def chunkerFlush (H : Bytes → Bytes) (f : WFile) : WFile × Option WErr :=
  WriteChunk H { f with rem := [] } f.rem

/-- Outcome of `wfile.Close`: the final session state (whose `drv` carries
the stores and the log), the returned error, and the state handed to
`wfilesPool.Put`, when the close reached a `Put` call. -/
structure CloseOut where
  f : WFile
  err : Option WErr
  pooled : Option WFile

/-- `wfile.Close` of wfile.go: inline the remainder when no chunk boundary
was ever completed (handing the session to the pool just before the final
put), otherwise run the remainder through the chunk path, force a batch
flush, and write the chunk-list record; every error path returns before the
files-space put. -/
def wClose (H : Bytes → Bytes) (f : WFile) : CloseOut :=
  if 0 < f.rem.length ∧ f.chunks = [] then
    let r := filesPut f.drv f.id (putUint32 0 ++ f.rem)
    ⟨{ f with drv := r.1 }, r.2, some f⟩
  else
    match (if 0 < f.rem.length then chunkerFlush H f else (f, none)) with
    | (f1, some e) => ⟨f1, some e, none⟩
    | (f1, none) =>
        match flushBatch f1 with
        | (f2, some e) => ⟨f2, some e, none⟩
        | (f2, none) =>
            let r := filesPut f2.drv f2.id (fileRecord f2.chunks)
            ⟨{ f2 with drv := r.1 }, r.2, some f2⟩

/-- `newWFile` of wfile.go.  The pool argument is what `wfilesPool.Get`
returned (modelled from the spec: some previously released session, or
none).  A pool hit installs the driver and identifier, empties the chunk
list (`w.chunks[:0]`) and resets the boundary source (`w.Chunker.Reset()`),
keeping the batch — which the pool invariant guarantees is empty. -/
def newWFile (pool : Option WFile) (d : WDrv) (fid : Bytes) : WFile :=
  match pool with
  | some w => { w with drv := d, id := fid, chunks := [], rem := [] }
  | none =>
      { drv := d, id := fid, chunks := [], batch := [], batchSize := 0,
        rem := [] }

/-- A sequence of `Write` calls, stopping at the first error as the caller
must. -/
def runWrites (H : Bytes → Bytes) : WFile → List Bytes → WFile × Option WErr
  | f, [] => (f, none)
  | f, p :: ps =>
      match wWrite H f p with
      | (f1, some e) => (f1, some e)
      | (f1, none) => runWrites H f1 ps

/-- One full session against the batched writer: acquire a fresh session,
feed the writes, and close unless a write failed. -/
def runSession (H : Bytes → Bytes) (d : WDrv) (fid : Bytes)
    (ws : List Bytes) : CloseOut :=
  match runWrites H (newWFile none d fid) ws with
  | (f1, some e) => ⟨f1, some e, none⟩
  | (f1, none) => wClose H f1

/-- The pool invariant of interest for C10: a pooled session has an empty
pending batch and a zero byte counter. -/
def batchClear : Option WFile → Prop
  | none => True
  | some w => w.batch = [] ∧ w.batchSize = 0

/-- Every hash the session has recorded is either already visible in the
chunk space or sitting in the pending batch — the invariant that makes the
final record sound. -/
def chunksCovered (f : WFile) : Prop :=
  ∀ h ∈ f.chunks, (∃ v, f.drv.chunks h = GetRes.found v) ∨ ∃ v, (h, v) ∈ f.batch

/-- The get outcomes WriteChunk's fall-through branch handles. -/
def noHit : GetRes → Prop
  | .found _ => False
  | .missing => True
  | .fail _ => True

lemma chunkSize_pos : 0 < chunkSize := by decide

lemma getUint32_putUint32_append (n : Nat) (rest : Bytes) :
    getUint32 (putUint32 n ++ rest) = n % 4294967296 := by
  simp only [putUint32, getUint32, List.cons_append, List.nil_append,
    List.getD_cons_zero, List.getD_cons_succ]
  omega

lemma writeChunk0_acc (H : Bytes → Bytes) (f : WFile0) :
    (writeChunk0 H f).acc = [] := by
  cases h : f.chunksSpace (H f.acc) <;> simp [writeChunk0, h]

lemma writeChunk0_chunks (H : Bytes → Bytes) (f : WFile0) :
    (writeChunk0 H f).chunks = f.chunks ++ [H f.acc] := by
  cases h : f.chunksSpace (H f.acc) <;> simp [writeChunk0, h]

lemma writeChunk0_filesSpace (H : Bytes → Bytes) (f : WFile0) :
    (writeChunk0 H f).filesSpace = f.filesSpace := by
  cases h : f.chunksSpace (H f.acc) <;> simp [writeChunk0, h]

lemma writeChunk0_id (H : Bytes → Bytes) (f : WFile0) :
    (writeChunk0 H f).id = f.id := by
  cases h : f.chunksSpace (H f.acc) <;> simp [writeChunk0, h]

lemma fullBlocks_small {B : Bytes} (h : B.length < chunkSize) :
    fullBlocks B = [] := by
  rw [fullBlocks]
  simp [Nat.not_le.mpr h]

lemma fullBlocks_big {B : Bytes} (h : chunkSize ≤ B.length) :
    fullBlocks B = B.take chunkSize :: fullBlocks (B.drop chunkSize) := by
  rw [fullBlocks]
  simp [h]

lemma tailRem_small {B : Bytes} (h : B.length < chunkSize) :
    tailRem B = B := by
  rw [tailRem]
  simp [Nat.not_le.mpr h]

lemma tailRem_big {B : Bytes} (h : chunkSize ≤ B.length) :
    tailRem B = tailRem (B.drop chunkSize) := by
  rw [tailRem]
  simp [h]

/-- Block decomposition is lossless: the complete blocks followed by the
remainder reassemble the input. -/
lemma flatten_fullBlocks_append_tailRem (B : Bytes) :
    (fullBlocks B).flatten ++ tailRem B = B := by
  by_cases h : chunkSize ≤ B.length
  · rw [fullBlocks_big h, tailRem_big h]
    have ih := flatten_fullBlocks_append_tailRem (B.drop chunkSize)
    simp only [List.flatten_cons, List.append_assoc, ih, List.take_append_drop]
  · rw [fullBlocks_small (Nat.not_le.mp h), tailRem_small (Nat.not_le.mp h)]
    simp
termination_by B.length
decreasing_by
  simp only [List.length_drop]
  have := chunkSize_pos
  omega

lemma tailRem_length_lt (B : Bytes) : (tailRem B).length < chunkSize := by
  by_cases h : chunkSize ≤ B.length
  · rw [tailRem_big h]
    exact tailRem_length_lt (B.drop chunkSize)
  · rw [tailRem_small (Nat.not_le.mp h)]
    omega
termination_by B.length
decreasing_by
  simp only [List.length_drop]
  have := chunkSize_pos
  omega

lemma write0_nil (H : Bytes → Bytes) (f : WFile0) : write0 H f [] = f := by
  rw [write0]
  simp

lemma write0_step (H : Bytes → Bytes) (f : WFile0) (p : Bytes) (hp : p ≠ [])
    (hacc : f.acc.length < chunkSize) :
    write0 H f p =
      (let c := min (chunkSize - f.acc.length) p.length
       let f1 : WFile0 := { f with acc := f.acc ++ p.take c }
       let f2 := if f1.acc.length = chunkSize then writeChunk0 H f1 else f1
       write0 H f2 (p.drop c)) := by
  have hc : ¬ (min (chunkSize - f.acc.length) p.length = 0) := by
    have := List.length_pos.mpr hp
    omega
  rw [write0]
  simp [hp, hc]

/-- Characterization of `write0`: starting with an accumulator shorter than
one chunk, feeding `p` runs the chunk callback on exactly the complete
`chunkSize`-blocks of `acc ++ p`, in order, and leaves the remainder
accumulated. -/
lemma write0_spec_aux (H : Bytes → Bytes) :
    ∀ (n : Nat) (p : Bytes) (f : WFile0), p.length ≤ n →
      f.acc.length < chunkSize →
    write0 H f p =
      { processBlocks0 H { f with acc := [] } (fullBlocks (f.acc ++ p)) with
          acc := tailRem (f.acc ++ p) } := by
  intro n
  induction n with
  | zero =>
      intro p f hn hacc
      have hp : p = [] := List.eq_nil_of_length_eq_zero (Nat.le_zero.mp hn)
      subst hp
      rw [write0_nil]
      simp [processBlocks0, fullBlocks_small hacc, tailRem_small hacc]
  | succ n ih =>
      intro p f hn hacc
      by_cases hp : p = []
      · subst hp
        rw [write0_nil]
        simp [processBlocks0, fullBlocks_small hacc, tailRem_small hacc]
      · rw [write0_step H f p hp hacc]
        have hplen : 0 < p.length := List.length_pos.mpr hp
        by_cases hcase : chunkSize - f.acc.length ≤ p.length
        · -- the buffer fills to a complete chunk this iteration
          have hcmin : min (chunkSize - f.acc.length) p.length =
              chunkSize - f.acc.length := min_eq_left hcase
          simp only [hcmin]
          have hlen1 :
              (f.acc ++ p.take (chunkSize - f.acc.length)).length = chunkSize := by
            simp only [List.length_append, List.length_take]
            omega
          rw [if_pos hlen1]
          have hbig : chunkSize ≤ (f.acc ++ p).length := by
            simp only [List.length_append]
            omega
          have htake : (f.acc ++ p).take chunkSize =
              f.acc ++ p.take (chunkSize - f.acc.length) := by
            rw [List.take_append_eq_append_take,
              List.take_of_length_le (by omega : f.acc.length ≤ chunkSize)]
          have hdrop : (f.acc ++ p).drop chunkSize =
              p.drop (chunkSize - f.acc.length) := by
            rw [List.drop_append_eq_append_drop,
              List.drop_eq_nil_of_le (by omega : f.acc.length ≤ chunkSize),
              List.nil_append]
          rw [fullBlocks_big hbig, tailRem_big hbig, htake, hdrop]
          set f1 : WFile0 := { f with acc := f.acc ++ p.take (chunkSize - f.acc.length) }
          have hstep : processBlocks0 H { f with acc := [] }
              (f1.acc :: fullBlocks (p.drop (chunkSize - f.acc.length))) =
              processBlocks0 H (writeChunk0 H f1)
                (fullBlocks (p.drop (chunkSize - f.acc.length))) := by
            simp [processBlocks0]
          rw [hstep]
          have hd : (p.drop (chunkSize - f.acc.length)).length ≤ n := by
            simp only [List.length_drop]
            omega
          have hacc1 : (writeChunk0 H f1).acc = [] := writeChunk0_acc H f1
          rw [ih (p.drop (chunkSize - f.acc.length)) (writeChunk0 H f1) hd
            (by rw [hacc1]; exact chunkSize_pos)]
          rw [hacc1]
          have heta : ({ writeChunk0 H f1 with acc := [] } : WFile0) =
              writeChunk0 H f1 := by
            rw [← hacc1]
          rw [heta, List.nil_append]
        · -- everything fits in the buffer, no chunk boundary reached
          have hlt : p.length < chunkSize - f.acc.length := Nat.not_le.mp hcase
          have hcmin : min (chunkSize - f.acc.length) p.length = p.length :=
            min_eq_right (Nat.le_of_lt hlt)
          simp only [hcmin, List.take_length, List.drop_length]
          have hlen1 : ¬ ((f.acc ++ p).length = chunkSize) := by
            simp only [List.length_append]
            omega
          rw [if_neg hlen1, write0_nil]
          have hsmall : (f.acc ++ p).length < chunkSize := by
            simp only [List.length_append]
            omega
          simp [processBlocks0, fullBlocks_small hsmall, tailRem_small hsmall]

lemma write0_spec (H : Bytes → Bytes) (f : WFile0) (p : Bytes)
    (hacc : f.acc.length < chunkSize) :
    write0 H f p =
      { processBlocks0 H { f with acc := [] } (fullBlocks (f.acc ++ p)) with
          acc := tailRem (f.acc ++ p) } :=
  write0_spec_aux H p.length p f le_rfl hacc

lemma processBlocks0_chunks (H : Bytes → Bytes) :
    ∀ (bs : List Bytes) (f : WFile0),
      (processBlocks0 H f bs).chunks = f.chunks ++ bs.map H := by
  intro bs
  induction bs with
  | nil => intro f; simp [processBlocks0]
  | cons b bs ih =>
      intro f
      have hstep : processBlocks0 H f (b :: bs) =
          processBlocks0 H (writeChunk0 H { f with acc := b }) bs := by
        simp [processBlocks0]
      rw [hstep, ih, writeChunk0_chunks]
      simp

lemma processBlocks0_filesSpace (H : Bytes → Bytes) :
    ∀ (bs : List Bytes) (f : WFile0),
      (processBlocks0 H f bs).filesSpace = f.filesSpace := by
  intro bs
  induction bs with
  | nil => intro f; simp [processBlocks0]
  | cons b bs ih =>
      intro f
      have hstep : processBlocks0 H f (b :: bs) =
          processBlocks0 H (writeChunk0 H { f with acc := b }) bs := by
        simp [processBlocks0]
      rw [hstep, ih, writeChunk0_filesSpace]

lemma processBlocks0_id (H : Bytes → Bytes) :
    ∀ (bs : List Bytes) (f : WFile0),
      (processBlocks0 H f bs).id = f.id := by
  intro bs
  induction bs with
  | nil => intro f; simp [processBlocks0]
  | cons b bs ih =>
      intro f
      have hstep : processBlocks0 H f (b :: bs) =
          processBlocks0 H (writeChunk0 H { f with acc := b }) bs := by
        simp [processBlocks0]
      rw [hstep, ih, writeChunk0_id]

lemma processBlocks0_acc (H : Bytes → Bytes) :
    ∀ (bs : List Bytes) (f : WFile0), f.acc = [] →
      (processBlocks0 H f bs).acc = [] := by
  intro bs
  induction bs with
  | nil => intro f h; simpa [processBlocks0] using h
  | cons b bs ih =>
      intro f h
      have hstep : processBlocks0 H f (b :: bs) =
          processBlocks0 H (writeChunk0 H { f with acc := b }) bs := by
        simp [processBlocks0]
      rw [hstep, ih _ (writeChunk0_acc H _)]

lemma consistent_empty (H : Bytes → Bytes) : consistent H emptyStore := by
  intro k v h
  simp [emptyStore] at h

lemma writeChunk0_store (H : Bytes → Bytes) (hinj : Function.Injective H)
    (f : WFile0) (hcons : consistent H f.chunksSpace) :
    consistent H (writeChunk0 H f).chunksSpace ∧
    (writeChunk0 H f).chunksSpace (H f.acc) = some f.acc ∧
    (∀ c, f.chunksSpace (H c) = some c →
      (writeChunk0 H f).chunksSpace (H c) = some c) := by
  cases h : f.chunksSpace (H f.acc) with
  | some v =>
      have hv : v = f.acc := hinj (hcons _ _ h).symm
      subst hv
      have heq : (writeChunk0 H f).chunksSpace = f.chunksSpace := by
        simp [writeChunk0, h]
      exact ⟨by rw [heq]; exact hcons, by rw [heq]; exact h,
        fun c hc => by rw [heq]; exact hc⟩
  | none =>
      have heq : (writeChunk0 H f).chunksSpace =
          storePut f.chunksSpace (H f.acc) f.acc := by
        simp [writeChunk0, h]
      refine ⟨?_, ?_, ?_⟩
      · rw [heq]
        intro k v hv
        simp only [storePut] at hv
        by_cases hk : k = H f.acc
        · rw [if_pos hk] at hv
          obtain rfl : f.acc = v := by injection hv
          exact hk
        · rw [if_neg hk] at hv
          exact hcons _ _ hv
      · rw [heq]
        simp [storePut]
      · intro c hc
        rw [heq]
        simp only [storePut]
        by_cases hk : H c = H f.acc
        · rw [if_pos hk, hinj hk]
        · rw [if_neg hk]
          exact hc

lemma processBlocks0_store (H : Bytes → Bytes) (hinj : Function.Injective H) :
    ∀ (bs : List Bytes) (f : WFile0), consistent H f.chunksSpace →
      consistent H (processBlocks0 H f bs).chunksSpace ∧
      (∀ c ∈ bs, (processBlocks0 H f bs).chunksSpace (H c) = some c) ∧
      (∀ c, f.chunksSpace (H c) = some c →
        (processBlocks0 H f bs).chunksSpace (H c) = some c) := by
  intro bs
  induction bs with
  | nil =>
      intro f hcons
      exact ⟨hcons, by simp, fun c hc => hc⟩
  | cons b bs ih =>
      intro f hcons
      have hstep : processBlocks0 H f (b :: bs) =
          processBlocks0 H (writeChunk0 H { f with acc := b }) bs := by
        simp [processBlocks0]
      obtain ⟨hcons1, hb, hkeep⟩ := writeChunk0_store H hinj { f with acc := b } hcons
      obtain ⟨hcons2, hbs, hkeep2⟩ := ih (writeChunk0 H { f with acc := b }) hcons1
      refine ⟨by rwa [hstep], ?_, ?_⟩
      · intro c hc
        rcases List.mem_cons.mp hc with hc | hc
        · subst hc
          rw [hstep]
          exact hkeep2 _ hb
        · rw [hstep]
          exact hbs c hc
      · intro c hc
        rw [hstep]
        exact hkeep2 _ (hkeep _ hc)

lemma processBlocks0_noop (H : Bytes → Bytes) :
    ∀ (bs : List Bytes) (f : WFile0),
      (∀ c ∈ bs, f.chunksSpace (H c) = some c) →
      (processBlocks0 H f bs).chunksSpace = f.chunksSpace := by
  intro bs
  induction bs with
  | nil => intro f _; simp [processBlocks0]
  | cons b bs ih =>
      intro f hall
      have hstep : processBlocks0 H f (b :: bs) =
          processBlocks0 H (writeChunk0 H { f with acc := b }) bs := by
        simp [processBlocks0]
      have hb : f.chunksSpace (H b) = some b := hall b (by simp)
      have hwc : writeChunk0 H { f with acc := b } =
          { f with acc := [], chunks := f.chunks ++ [H b] } := by
        simp [writeChunk0, hb]
      rw [hstep, hwc, ih]
      intro c hc
      exact hall c (by simp [hc])

lemma fullBlocks_append (X p : Bytes) :
    fullBlocks (X ++ p) = fullBlocks X ++ fullBlocks (tailRem X ++ p) := by
  by_cases h : chunkSize ≤ X.length
  · have hbig : chunkSize ≤ (X ++ p).length := by
      simp only [List.length_append]
      omega
    have htake : (X ++ p).take chunkSize = X.take chunkSize := by
      rw [List.take_append_eq_append_take,
        Nat.sub_eq_zero_of_le h, List.take_zero, List.append_nil]
    have hdrop : (X ++ p).drop chunkSize = X.drop chunkSize ++ p := by
      rw [List.drop_append_eq_append_drop,
        Nat.sub_eq_zero_of_le h, List.drop_zero]
    rw [fullBlocks_big hbig, fullBlocks_big h, tailRem_big h, htake, hdrop,
      fullBlocks_append (X.drop chunkSize) p]
    simp
  · rw [fullBlocks_small (Nat.not_le.mp h), tailRem_small (Nat.not_le.mp h)]
    simp
termination_by X.length
decreasing_by
  simp only [List.length_drop]
  have := chunkSize_pos
  omega

lemma tailRem_append (X p : Bytes) :
    tailRem (X ++ p) = tailRem (tailRem X ++ p) := by
  by_cases h : chunkSize ≤ X.length
  · have hbig : chunkSize ≤ (X ++ p).length := by
      simp only [List.length_append]
      omega
    have hdrop : (X ++ p).drop chunkSize = X.drop chunkSize ++ p := by
      rw [List.drop_append_eq_append_drop,
        Nat.sub_eq_zero_of_le h, List.drop_zero]
    rw [tailRem_big hbig, hdrop, tailRem_big h,
      tailRem_append (X.drop chunkSize) p]
  · rw [tailRem_small (Nat.not_le.mp h)]
termination_by X.length
decreasing_by
  simp only [List.length_drop]
  have := chunkSize_pos
  omega

lemma write0_acc_lt (H : Bytes → Bytes) (f : WFile0) (p : Bytes)
    (hacc : f.acc.length < chunkSize) :
    (write0 H f p).acc.length < chunkSize := by
  rw [write0_spec H f p hacc]
  exact tailRem_length_lt _

lemma write0_canon (H : Bytes → Bytes) (f : WFile0) (p : Bytes)
    (hacc : f.acc.length < chunkSize) :
    write0 H f p = canon0 H f (f.acc ++ p) :=
  write0_spec H f p hacc

lemma processBlocks0_append (H : Bytes → Bytes) (f : WFile0) (u v : List Bytes) :
    processBlocks0 H f (u ++ v) = processBlocks0 H (processBlocks0 H f u) v := by
  simp [processBlocks0, List.foldl_append]

lemma processBlocks0_acc_irrel (H : Bytes → Bytes) (f : WFile0) (v r : Bytes)
    (bs : List Bytes) :
    ({ processBlocks0 H ({ f with acc := v }) bs with acc := r } : WFile0) =
      { processBlocks0 H f bs with acc := r } := by
  cases bs with
  | nil => rfl
  | cons c rest => rfl

lemma canon0_step (H : Bytes → Bytes) (f : WFile0) (X b : Bytes) :
    write0 H (canon0 H f X) b = canon0 H f (X ++ b) := by
  have haccX : (canon0 H f X).acc = tailRem X := rfl
  rw [write0_canon H (canon0 H f X) b (by rw [haccX]; exact tailRem_length_lt X),
    haccX]
  show ({ processBlocks0 H
      ({ processBlocks0 H { f with acc := [] } (fullBlocks X) with acc := ([] : Bytes) })
      (fullBlocks (tailRem X ++ b)) with acc := tailRem (tailRem X ++ b) } : WFile0) = _
  rw [processBlocks0_acc_irrel]
  rw [canon0, fullBlocks_append X b, tailRem_append X b, processBlocks0_append]

/-- Splitting the fed bytes anywhere commutes with the write loop. -/
lemma write0_append (H : Bytes → Bytes) (f : WFile0) (a b : Bytes)
    (hacc : f.acc.length < chunkSize) :
    write0 H f (a ++ b) = write0 H (write0 H f a) b := by
  rw [write0_canon H f (a ++ b) hacc, write0_canon H f a hacc, canon0_step,
    List.append_assoc]

lemma writeMany0_eq_flatten (H : Bytes → Bytes) :
    ∀ (pieces : List Bytes) (f : WFile0), f.acc.length < chunkSize →
      writeMany0 H f pieces = write0 H f pieces.flatten := by
  intro pieces
  induction pieces with
  | nil =>
      intro f _
      rw [writeMany0]
      simp [write0_nil]
  | cons p ps ih =>
      intro f hacc
      have h1 : writeMany0 H f (p :: ps) = writeMany0 H (write0 H f p) ps := by
        rw [writeMany0, writeMany0]
        simp
      rw [h1, ih _ (write0_acc_lt H f p hacc), List.flatten_cons,
        write0_append H f p ps.flatten hacc]

lemma newWFile0_acc (cS fS : Store) (id : Bytes) : (newWFile0 cS fS id).acc = [] :=
  rfl

lemma run0_canon (H : Bytes → Bytes) (cS fS : Store) (id B : Bytes) :
    run0 H cS fS id B = close0 H (canon0 H (newWFile0 cS fS id) B) := by
  unfold run0
  rw [write0_canon H _ B (by rw [newWFile0_acc]; exact chunkSize_pos)]
  rfl

/-- A session on a file smaller than one chunk: the record is inline and the
chunk space is untouched. -/
lemma run0_small (H : Bytes → Bytes) (cS fS : Store) (id B : Bytes)
    (hsmall : B.length < chunkSize) :
    (run0 H cS fS id B).filesSpace = storePut fS id (putUint32 0 ++ B) ∧
    (run0 H cS fS id B).chunksSpace = cS := by
  rw [run0_canon]
  have hc : canon0 H (newWFile0 cS fS id) B =
      { newWFile0 cS fS id with acc := B } := by
    rw [canon0, fullBlocks_small hsmall, tailRem_small hsmall]
    rfl
  rw [hc]
  by_cases hB : B = []
  · subst hB
    constructor
    · show storePut fS id (fileRecord []) = storePut fS id (putUint32 0 ++ [])
      rw [show fileRecord [] = putUint32 0 ++ [] by simp [fileRecord]]
    · rfl
  · have hcond : 0 < B.length := List.length_pos.mpr hB
    constructor
    · show (close0 H { newWFile0 cS fS id with acc := B }).filesSpace = _
      rw [close0, if_pos ⟨hcond, rfl⟩]
      rfl
    · show (close0 H { newWFile0 cS fS id with acc := B }).chunksSpace = cS
      rw [close0, if_pos ⟨hcond, rfl⟩]
      rfl

/-- A session on a file of at least one chunk: the record lists the hashes of
all processed chunks, and the chunk space is exactly the one produced by
running the chunk callback over `chunkList B`. -/
lemma run0_big (H : Bytes → Bytes) (cS fS : Store) (id B : Bytes)
    (hbig : chunkSize ≤ B.length) :
    (run0 H cS fS id B).filesSpace =
      storePut fS id (fileRecord ((chunkList B).map H)) ∧
    (run0 H cS fS id B).chunksSpace =
      (processBlocks0 H (newWFile0 cS fS id) (chunkList B)).chunksSpace := by
  rw [run0_canon]
  have hset : ({ newWFile0 cS fS id with acc := ([] : Bytes) } : WFile0) =
      newWFile0 cS fS id := rfl
  have hPacc : (processBlocks0 H (newWFile0 cS fS id) (fullBlocks B)).acc = [] :=
    processBlocks0_acc H _ _ rfl
  have hPchunks : (processBlocks0 H (newWFile0 cS fS id) (fullBlocks B)).chunks =
      (fullBlocks B).map H := by
    rw [processBlocks0_chunks]
    rfl
  have hPfiles : (processBlocks0 H (newWFile0 cS fS id) (fullBlocks B)).filesSpace
      = fS := by
    rw [processBlocks0_filesSpace]
    rfl
  have hPid : (processBlocks0 H (newWFile0 cS fS id) (fullBlocks B)).id = id := by
    rw [processBlocks0_id]
    rfl
  have hfbne : fullBlocks B ≠ [] := by
    rw [fullBlocks_big hbig]
    simp
  have hcanon : canon0 H (newWFile0 cS fS id) B =
      { processBlocks0 H (newWFile0 cS fS id) (fullBlocks B) with
          acc := tailRem B } := by
    rw [canon0, hset]
  rw [hcanon]
  by_cases hrem : tailRem B = []
  · have hcl : chunkList B = fullBlocks B := by
      rw [chunkList, hrem]
      simp
    have hcond : ¬ (0 < (tailRem B).length ∧
        ({ processBlocks0 H (newWFile0 cS fS id) (fullBlocks B) with
            acc := tailRem B } : WFile0).chunks = []) := by
      rw [hrem]
      simp
    rw [close0, if_neg hcond, if_neg (by rw [hrem]; simp)]
    constructor
    · show storePut
          (processBlocks0 H (newWFile0 cS fS id) (fullBlocks B)).filesSpace
          (processBlocks0 H (newWFile0 cS fS id) (fullBlocks B)).id
          (fileRecord (processBlocks0 H (newWFile0 cS fS id) (fullBlocks B)).chunks)
        = storePut fS id (fileRecord ((chunkList B).map H))
      rw [hPfiles, hPid, hPchunks, hcl]
    · show (processBlocks0 H (newWFile0 cS fS id) (fullBlocks B)).chunksSpace =
        (processBlocks0 H (newWFile0 cS fS id) (chunkList B)).chunksSpace
      rw [hcl]
  · have hremlen : 0 < (tailRem B).length := List.length_pos.mpr hrem
    have hchne : ({ processBlocks0 H (newWFile0 cS fS id) (fullBlocks B) with
        acc := tailRem B } : WFile0).chunks ≠ [] := by
      show (processBlocks0 H (newWFile0 cS fS id) (fullBlocks B)).chunks ≠ []
      rw [hPchunks]
      simp [hfbne]
    have hcl : chunkList B = fullBlocks B ++ [tailRem B] := by
      rw [chunkList, if_neg hrem]
    have hf1 : writeChunk0 H
        ({ processBlocks0 H (newWFile0 cS fS id) (fullBlocks B) with
            acc := tailRem B }) =
        processBlocks0 H (newWFile0 cS fS id) (chunkList B) := by
      rw [hcl, processBlocks0_append]
      simp [processBlocks0]
    rw [close0, if_neg (by intro hand; exact hchne hand.2), if_pos hremlen, hf1]
    have hFfiles : (processBlocks0 H (newWFile0 cS fS id) (chunkList B)).filesSpace
        = fS := by
      rw [processBlocks0_filesSpace]
      rfl
    have hFid : (processBlocks0 H (newWFile0 cS fS id) (chunkList B)).id = id := by
      rw [processBlocks0_id]
      rfl
    have hFchunks : (processBlocks0 H (newWFile0 cS fS id) (chunkList B)).chunks =
        (chunkList B).map H := by
      rw [processBlocks0_chunks]
      rfl
    constructor
    · show storePut
          (processBlocks0 H (newWFile0 cS fS id) (chunkList B)).filesSpace
          (processBlocks0 H (newWFile0 cS fS id) (chunkList B)).id
          (fileRecord (processBlocks0 H (newWFile0 cS fS id) (chunkList B)).chunks)
        = storePut fS id (fileRecord ((chunkList B).map H))
      rw [hFfiles, hFid, hFchunks]
    · rfl

lemma hashE_inj : Function.Injective hashE := by
  intro a b h
  have h1 : Encodable.encode a = Encodable.encode b := by
    have h0 := congrArg (fun l : Bytes => l.headD 0) h
    simpa [hashE] using h0
  exact Encodable.encode_injective h1

lemma hashE_len (d : Bytes) : (hashE d).length = sha1Size := by
  simp [hashE, sha1Size]

lemma storePut_self (s : Store) (k v : Bytes) : storePut s k v k = some v := by
  simp [storePut]

lemma storePut_other (s : Store) (k v k' : Bytes) (h : k' ≠ k) :
    storePut s k v k' = s k' := by
  simp [storePut, h]

lemma chunkList_flatten (B : Bytes) : (chunkList B).flatten = B := by
  rw [chunkList]
  by_cases h : tailRem B = []
  · rw [if_pos h]
    have := flatten_fullBlocks_append_tailRem B
    rw [h, List.append_nil] at this
    simpa using this
  · rw [if_neg h]
    have := flatten_fullBlocks_append_tailRem B
    simpa using this

lemma drop4_putUint32_append (n : Nat) (x : Bytes) :
    (putUint32 n ++ x).drop 4 = x := rfl

lemma specEntries_fileRecord :
    ∀ (cl : List Bytes), (∀ c ∈ cl, c.length = 20) →
      specEntries cl.length ((cl.map (fun c => putUint32 c.length ++ c)).flatten) =
        cl.map (fun h => (20, h)) := by
  intro cl
  induction cl with
  | nil => intro _; rfl
  | cons c t ih =>
      intro hlen
      have hc : c.length = 20 := hlen c (by simp)
      have hflat : ((c :: t).map (fun c => putUint32 c.length ++ c)).flatten =
          putUint32 c.length ++ (c ++ ((t.map (fun c => putUint32 c.length ++ c)).flatten)) := by
        simp
      rw [show (c :: t).length = t.length + 1 from rfl, hflat, specEntries]
      have h1 : getUint32 (putUint32 c.length ++
          (c ++ (t.map (fun c => putUint32 c.length ++ c)).flatten)) = 20 := by
        rw [getUint32_putUint32_append, hc]
      have h2 : ((putUint32 c.length ++
          (c ++ (t.map (fun c => putUint32 c.length ++ c)).flatten)).drop 4).take 20 = c := by
        rw [drop4_putUint32_append, ← hc, List.take_left]
      have h3 : (putUint32 c.length ++
          (c ++ (t.map (fun c => putUint32 c.length ++ c)).flatten)).drop 24 =
          (t.map (fun c => putUint32 c.length ++ c)).flatten := by
        rw [show (24 : Nat) = 4 + 20 from rfl, ← List.drop_drop, drop4_putUint32_append,
          ← hc, List.drop_left]
      rw [h1, h2, h3, ih (fun d hd => hlen d (by simp [hd]))]
      rfl

lemma fullReconstruct_fileRecord (s : Store) (cl : List Bytes)
    (hlen : ∀ c ∈ cl, c.length = 20) (hne : cl ≠ [])
    (hcount : cl.length < 4294967296) :
    fullReconstruct s (fileRecord cl) =
      (cl.map (fun h => (s h).getD [])).flatten := by
  have hn : getUint32 (fileRecord cl) = cl.length := by
    rw [fileRecord, getUint32_putUint32_append, Nat.mod_eq_of_lt hcount]
  have hne' : cl.length ≠ 0 := fun h => hne (List.eq_nil_of_length_eq_zero h)
  rw [fullReconstruct, if_neg (by rw [hn]; exact hne'), hn]
  rw [show (fileRecord cl).drop 4 =
      (cl.map (fun c => putUint32 c.length ++ c)).flatten from
    drop4_putUint32_append _ _]
  rw [specEntries_fileRecord cl hlen, List.map_map]
  rfl

lemma specReconstruct_fileRecord (s : Store) (cl : List Bytes)
    (hlen : ∀ c ∈ cl, c.length = 20) (hne : cl ≠ [])
    (hcount : cl.length < 4294967296) :
    specReconstruct s (fileRecord cl) =
      (cl.map (fun h => ((s h).getD []).take 20)).flatten := by
  have hn : getUint32 (fileRecord cl) = cl.length := by
    rw [fileRecord, getUint32_putUint32_append, Nat.mod_eq_of_lt hcount]
  have hne' : cl.length ≠ 0 := fun h => hne (List.eq_nil_of_length_eq_zero h)
  rw [specReconstruct, if_neg (by rw [hn]; exact hne'), hn]
  rw [show (fileRecord cl).drop 4 =
      (cl.map (fun c => putUint32 c.length ++ c)).flatten from
    drop4_putUint32_append _ _]
  rw [specEntries_fileRecord cl hlen, List.map_map]
  rfl

lemma entry_length_field :
    ∀ (cl : List Bytes), (∀ c ∈ cl, c.length = 20) → ∀ i, i < cl.length →
      getUint32 (((cl.map (fun c => putUint32 c.length ++ c)).flatten).drop (24 * i))
        = 20 := by
  intro cl
  induction cl with
  | nil =>
      intro _ i hi
      simp at hi
  | cons c t ih =>
      intro hlen i hi
      have hc : c.length = 20 := hlen c (by simp)
      cases i with
      | zero =>
          simp only [Nat.mul_zero, List.drop_zero, List.map_cons, List.flatten_cons,
            List.append_assoc]
          rw [getUint32_putUint32_append, hc]
      | succ i =>
          have hdrop24 : (((c :: t).map (fun c => putUint32 c.length ++ c)).flatten).drop 24
              = (t.map (fun c => putUint32 c.length ++ c)).flatten := by
            simp only [List.map_cons, List.flatten_cons, List.append_assoc]
            rw [show (24 : Nat) = 4 + 20 from rfl, ← List.drop_drop,
              drop4_putUint32_append, ← hc, List.drop_left]
          have hsplit : (((c :: t).map (fun c => putUint32 c.length ++ c)).flatten).drop
              (24 * (i + 1)) =
              ((t.map (fun c => putUint32 c.length ++ c)).flatten).drop (24 * i) := by
            rw [show 24 * (i + 1) = 24 + 24 * i by ring, ← List.drop_drop, hdrop24]
          rw [hsplit]
          exact ih (fun d hd => hlen d (by simp [hd])) i (by simpa using hi)

lemma fullBlocks_replicate_mul (a : Nat) :
    ∀ k, fullBlocks (List.replicate (k * chunkSize) a) =
      List.replicate k (List.replicate chunkSize a) := by
  intro k
  induction k with
  | zero =>
      rw [Nat.zero_mul, List.replicate_zero,
        fullBlocks_small (by simpa using chunkSize_pos)]
      rfl
  | succ k ih =>
      have hbig : chunkSize ≤ (List.replicate ((k + 1) * chunkSize) a).length := by
        simp [Nat.succ_mul]
      rw [fullBlocks_big hbig, List.take_replicate, List.drop_replicate]
      rw [show min chunkSize ((k + 1) * chunkSize) = chunkSize from
        min_eq_left (by have := chunkSize_pos; nlinarith)]
      rw [show (k + 1) * chunkSize - chunkSize = k * chunkSize by
        rw [Nat.succ_mul]; omega]
      rw [ih]
      rfl

lemma tailRem_replicate_mul (a : Nat) :
    ∀ k, tailRem (List.replicate (k * chunkSize) a) = [] := by
  intro k
  induction k with
  | zero =>
      rw [Nat.zero_mul, List.replicate_zero,
        tailRem_small (by simpa using chunkSize_pos)]
  | succ k ih =>
      have hbig : chunkSize ≤ (List.replicate ((k + 1) * chunkSize) a).length := by
        simp [Nat.succ_mul]
      rw [tailRem_big hbig, List.drop_replicate]
      rw [show (k + 1) * chunkSize - chunkSize = k * chunkSize by
        rw [Nat.succ_mul]; omega]
      exact ih

lemma chunkList_replicate_mul (a k : Nat) :
    chunkList (List.replicate (k * chunkSize) a) =
      List.replicate k (List.replicate chunkSize a) := by
  rw [chunkList, fullBlocks_replicate_mul, tailRem_replicate_mul]
  simp

lemma chunkList_replicate_one (a : Nat) :
    chunkList (List.replicate chunkSize a) = [List.replicate chunkSize a] := by
  have := chunkList_replicate_mul a 1
  rwa [Nat.one_mul] at this

lemma chunkList_ne_nil_of_big {B : Bytes} (hbig : chunkSize ≤ B.length) :
    chunkList B ≠ [] := by
  intro h
  rw [chunkList] at h
  rcases List.append_eq_nil.mp h with ⟨h1, _⟩
  rw [fullBlocks_big hbig] at h1
  exact List.cons_ne_nil _ _ h1

/-- All referenced chunks are present, under their own hash, in the chunk
space a successful large-file session leaves behind. -/
lemma run0_presence (H : Bytes → Bytes) (hinj : Function.Injective H)
    (cS fS : Store) (hcons : consistent H cS) (id B : Bytes)
    (hbig : chunkSize ≤ B.length) :
    ∀ c ∈ chunkList B, (run0 H cS fS id B).chunksSpace (H c) = some c := by
  intro c hc
  rw [(run0_big H cS fS id B hbig).2]
  exact (processBlocks0_store H hinj (chunkList B) (newWFile0 cS fS id) hcons).2.1 c hc

/-- C1 (amended): in every chunk-list record produced by `close()`, each
chunk entry's uint32 length field holds the byte length of the entry's
20-byte hash — the constant `sha1.Size` = 20 — not the byte length of the
chunk's stored data. -/
theorem claim_C1_amended (H : Bytes → Bytes) (hlen : ∀ d, (H d).length = sha1Size)
    (cS fS : Store) (id B : Bytes) (hbig : chunkSize ≤ B.length) :
    ∀ i, i < (chunkList B).length →
      getUint32 ((((run0 H cS fS id B).filesSpace id).getD []).drop (4 + 24 * i))
        = sha1Size := by
  intro i hi
  obtain ⟨hf, _⟩ := run0_big H cS fS id B hbig
  rw [hf, storePut_self, Option.getD_some, fileRecord]
  rw [← List.drop_drop, drop4_putUint32_append]
  exact entry_length_field ((chunkList B).map H)
    (fun c hc => by
      obtain ⟨d, _, rfl⟩ := List.mem_map.mp hc
      exact hlen d)
    i (by simpa using hi)

/-- C1 witness: the amended statement applied to a concrete one-chunk file. -/
theorem claim_C1_witness :
    (∀ d, (hashE d).length = sha1Size) ∧
    chunkSize ≤ (List.replicate chunkSize 1).length ∧
    getUint32 ((((run0 hashE emptyStore emptyStore [0]
        (List.replicate chunkSize 1)).filesSpace [0]).getD []).drop (4 + 24 * 0))
      = sha1Size := by
  refine ⟨hashE_len, by simp, ?_⟩
  refine claim_C1_amended hashE hashE_len emptyStore emptyStore [0]
    (List.replicate chunkSize 1) (by simp) 0 ?_
  rw [chunkList_replicate_one]
  simp

/-- C1 counterexample: for a file of exactly one chunk of 256 KiB, the
record's first (and only) length field reads 20, while the referenced
chunk's stored data is 256 KiB long — so the claim "length field equals the
byte length of the chunk's stored data" fails on the code. -/
theorem claim_C1_counterexample :
    getUint32 ((((run0 hashE emptyStore emptyStore [0]
        (List.replicate chunkSize 1)).filesSpace [0]).getD []).drop 4) = 20 ∧
    (((run0 hashE emptyStore emptyStore [0]
        (List.replicate chunkSize 1)).chunksSpace
          (hashE (List.replicate chunkSize 1))).getD []).length = chunkSize ∧
    (20 : Nat) ≠ chunkSize := by
  have hbig : chunkSize ≤ (List.replicate chunkSize 1).length := by simp
  obtain ⟨hf, hc⟩ := run0_big hashE emptyStore emptyStore [0]
    (List.replicate chunkSize 1) hbig
  refine ⟨?_, ?_, by norm_num [chunkSize]⟩
  · rw [hf, storePut_self, Option.getD_some, fileRecord, drop4_putUint32_append]
    have h20 := entry_length_field ((chunkList (List.replicate chunkSize 1)).map hashE)
      (fun c hcm => by
        obtain ⟨d, _, rfl⟩ := List.mem_map.mp hcm
        exact hashE_len d)
      0 (by rw [chunkList_replicate_one]; simp)
    rw [Nat.mul_zero, List.drop_zero] at h20
    exact h20
  · rw [hc, chunkList_replicate_one]
    have hstep : processBlocks0 hashE (newWFile0 emptyStore emptyStore [0])
        [List.replicate chunkSize 1] =
        writeChunk0 hashE { newWFile0 emptyStore emptyStore [0] with
          acc := List.replicate chunkSize 1 } := rfl
    rw [hstep]
    have hnone : (newWFile0 emptyStore emptyStore [0]).chunksSpace
        (hashE (List.replicate chunkSize 1)) = none := rfl
    have hwc : (writeChunk0 hashE { newWFile0 emptyStore emptyStore [0] with
        acc := List.replicate chunkSize 1 }).chunksSpace =
        storePut (newWFile0 emptyStore emptyStore [0]).chunksSpace
          (hashE (List.replicate chunkSize 1)) (List.replicate chunkSize 1) := by
      simp only [writeChunk0, hnone]
    rw [hwc, storePut_self, Option.getD_some, List.length_replicate]

/-- C2 (amended): round-trip holds once the reconstruction concatenates each
referenced chunk's full stored bytes (not the first `length` bytes, since
the length field is the hash length): for every injective 20-byte digest,
content-consistent initial chunk space and file of fewer than 2^32 chunks,
`write(B); close()` followed by full-chunk reconstruction reproduces `B`. -/
theorem claim_C2_amended (H : Bytes → Bytes) (hinj : Function.Injective H)
    (hlen : ∀ d, (H d).length = sha1Size) (cS fS : Store)
    (hcons : consistent H cS) (fid B : Bytes)
    (hcount : (chunkList B).length < 4294967296) :
    fullReconstruct (run0 H cS fS fid B).chunksSpace
      (((run0 H cS fS fid B).filesSpace fid).getD []) = B := by
  by_cases hsmall : B.length < chunkSize
  · obtain ⟨hf, _⟩ := run0_small H cS fS fid B hsmall
    rw [hf, storePut_self, Option.getD_some, fullReconstruct,
      if_pos (by rw [getUint32_putUint32_append]), drop4_putUint32_append]
  · have hbig : chunkSize ≤ B.length := Nat.not_lt.mp hsmall
    obtain ⟨hf, _⟩ := run0_big H cS fS fid B hbig
    rw [hf, storePut_self, Option.getD_some]
    have hlen' : ∀ c ∈ (chunkList B).map H, c.length = 20 := by
      intro c hcm
      obtain ⟨d, _, rfl⟩ := List.mem_map.mp hcm
      exact hlen d
    have hne : (chunkList B).map H ≠ [] := by
      intro hmapnil
      exact chunkList_ne_nil_of_big hbig (List.map_eq_nil_iff.mp hmapnil)
    rw [fullReconstruct_fileRecord _ _ hlen' hne (by simpa using hcount),
      List.map_map]
    have hpres := run0_presence H hinj cS fS hcons fid B hbig
    have hcongr : ∀ c ∈ chunkList B,
        ((fun h => (((run0 H cS fS fid B).chunksSpace) h).getD []) ∘ H) c = id c := by
      intro c hc
      simp only [Function.comp_apply, id_eq]
      rw [hpres c hc]
      rfl
    rw [List.map_congr_left hcongr, List.map_id, chunkList_flatten]

/-- C2 witness: the amended round-trip at a concrete small input. -/
theorem claim_C2_witness :
    Function.Injective hashE ∧ consistent hashE emptyStore ∧
    (chunkList [1, 2, 3]).length < 4294967296 ∧
    fullReconstruct (run0 hashE emptyStore emptyStore [0] [1, 2, 3]).chunksSpace
      (((run0 hashE emptyStore emptyStore [0] [1, 2, 3]).filesSpace [0]).getD [])
      = [1, 2, 3] := by
  have hcl : chunkList [1, 2, 3] = [[1, 2, 3]] := by
    rw [chunkList, fullBlocks_small (by decide), tailRem_small (by decide)]
    simp
  exact ⟨hashE_inj, consistent_empty hashE, by rw [hcl]; norm_num,
    claim_C2_amended hashE hashE_inj hashE_len emptyStore emptyStore
      (consistent_empty hashE) [0] [1, 2, 3] (by rw [hcl]; norm_num)⟩

/-- C2 counterexample: for a file of exactly one 256 KiB chunk, decoding the
record as the claim words it — taking the first `length` bytes of the
referenced chunk — yields only 20 bytes (the length field holds the hash
length), so it does not reproduce the file. -/
theorem claim_C2_counterexample :
    specReconstruct (run0 hashE emptyStore emptyStore [0]
        (List.replicate chunkSize 1)).chunksSpace
      (((run0 hashE emptyStore emptyStore [0]
          (List.replicate chunkSize 1)).filesSpace [0]).getD [])
      ≠ List.replicate chunkSize 1 := by
  have hbig : chunkSize ≤ (List.replicate chunkSize 1).length := by simp
  obtain ⟨hf, _⟩ := run0_big hashE emptyStore emptyStore [0]
    (List.replicate chunkSize 1) hbig
  rw [hf, storePut_self, Option.getD_some, chunkList_replicate_one]
  rw [show (([List.replicate chunkSize 1].map hashE) : List Bytes) =
      [hashE (List.replicate chunkSize 1)] from rfl]
  rw [specReconstruct_fileRecord _ _
      (by
        intro c hcm
        rw [List.mem_singleton.mp hcm]
        exact hashE_len _)
      (by simp) (by norm_num)]
  have hpres := run0_presence hashE hashE_inj emptyStore emptyStore
    (consistent_empty hashE) [0] (List.replicate chunkSize 1) hbig
    (List.replicate chunkSize 1)
    (by rw [chunkList_replicate_one]; exact List.mem_singleton.mpr rfl)
  simp only [List.map_cons, List.map_nil, List.flatten_cons, List.flatten_nil,
    List.append_nil]
  rw [hpres, Option.getD_some, List.take_replicate,
    show min 20 chunkSize = 20 from by norm_num [chunkSize]]
  intro heq
  have hlen2 := congrArg List.length heq
  simp only [List.length_replicate] at hlen2
  exact absurd hlen2 (by norm_num [chunkSize])

/-- C3 (amended): a file smaller than the chunk size produces a record whose
leading uint32 is 0 with the file bytes inline; a file of at least one chunk
size produces at least one chunk entry, and the leading uint32 — the entry
count reduced modulo 2^32 — is at least 1 whenever the file has fewer than
2^32 chunks. -/
theorem claim_C3_amended (H : Bytes → Bytes) (cS fS : Store) (fid B : Bytes) :
    (B.length < chunkSize →
      getUint32 (((run0 H cS fS fid B).filesSpace fid).getD []) = 0 ∧
      (((run0 H cS fS fid B).filesSpace fid).getD []).drop 4 = B) ∧
    (chunkSize ≤ B.length → (chunkList B).length < 4294967296 →
      1 ≤ getUint32 (((run0 H cS fS fid B).filesSpace fid).getD [])) := by
  constructor
  · intro hsmall
    obtain ⟨hf, _⟩ := run0_small H cS fS fid B hsmall
    rw [hf, storePut_self, Option.getD_some]
    exact ⟨by rw [getUint32_putUint32_append], drop4_putUint32_append 0 B⟩
  · intro hbig hcount
    obtain ⟨hf, _⟩ := run0_big H cS fS fid B hbig
    rw [hf, storePut_self, Option.getD_some, fileRecord,
      getUint32_putUint32_append, List.length_map, Nat.mod_eq_of_lt hcount]
    exact List.length_pos.mpr (chunkList_ne_nil_of_big hbig)

/-- C3 witness: the amended statement at a concrete small input and at a
concrete one-chunk input. -/
theorem claim_C3_witness :
    ([1, 2, 3] : Bytes).length < chunkSize ∧
    (getUint32 (((run0 hashE emptyStore emptyStore [0] [1, 2, 3]).filesSpace
        [0]).getD []) = 0 ∧
      (((run0 hashE emptyStore emptyStore [0] [1, 2, 3]).filesSpace
        [0]).getD []).drop 4 = [1, 2, 3]) ∧
    chunkSize ≤ (List.replicate chunkSize 1).length ∧
    (chunkList (List.replicate chunkSize 1)).length < 4294967296 ∧
    1 ≤ getUint32 (((run0 hashE emptyStore emptyStore [1]
        (List.replicate chunkSize 1)).filesSpace [1]).getD []) := by
  refine ⟨by decide,
    (claim_C3_amended hashE emptyStore emptyStore [0] [1, 2, 3]).1 (by decide),
    by simp, by rw [chunkList_replicate_one]; norm_num,
    (claim_C3_amended hashE emptyStore emptyStore [1]
        (List.replicate chunkSize 1)).2
      (by simp) (by rw [chunkList_replicate_one]; norm_num)⟩

/-- C3 counterexample: a file of 2^32 chunks (2^32 * 256 KiB zero bytes) is
at least one chunk size long, yet `uint32(len(f.chunks))` wraps to 0, so the
leading uint32 of its record is 0, not >= 1 as the claim states. -/
theorem claim_C3_counterexample :
    chunkSize ≤ (List.replicate (4294967296 * chunkSize) 0).length ∧
    getUint32 (((run0 hashE emptyStore emptyStore [0]
        (List.replicate (4294967296 * chunkSize) 0)).filesSpace [0]).getD [])
      = 0 := by
  have hbig : chunkSize ≤ (List.replicate (4294967296 * chunkSize) 0).length := by
    rw [List.length_replicate]
    omega
  refine ⟨hbig, ?_⟩
  obtain ⟨hf, _⟩ := run0_big hashE emptyStore emptyStore [0] _ hbig
  rw [hf, storePut_self, Option.getD_some, fileRecord,
    getUint32_putUint32_append, List.length_map, chunkList_replicate_mul,
    List.length_replicate]

/-- C9: feeding a byte sequence as many small `Write` calls and as one large
`Write` call leaves identical session states, hence `close()` produces
byte-identical File Index Records against the same initial stores. -/
theorem claim_C9_confirmed (H : Bytes → Bytes) (cS fS : Store) (fid : Bytes)
    (pieces : List Bytes) :
    writeMany0 H (newWFile0 cS fS fid) pieces =
      write0 H (newWFile0 cS fS fid) pieces.flatten ∧
    (close0 H (writeMany0 H (newWFile0 cS fS fid) pieces)).filesSpace fid =
      (close0 H (write0 H (newWFile0 cS fS fid) pieces.flatten)).filesSpace fid := by
  have h := writeMany0_eq_flatten H pieces (newWFile0 cS fS fid)
    (by rw [newWFile0_acc]; exact chunkSize_pos)
  exact ⟨h, by rw [h]⟩

lemma flushBatch_chunks (f : WFile) : (flushBatch f).1.chunks = f.chunks := rfl

lemma WriteChunk_chunks (H : Bytes → Bytes) (f : WFile) (data : Bytes) :
    (WriteChunk H f data).1.chunks = f.chunks ++ [H data] := by
  cases h : f.drv.chunks (H data) with
  | found v =>
      by_cases hl : v.length ≠ data.length <;> simp [WriteChunk, h, hl]
  | missing =>
      by_cases hs : maxBatchSize ≤ f.batchSize + data.length <;>
        simp [WriteChunk, h, hs, flushBatch]
  | fail e =>
      by_cases hs : maxBatchSize ≤ f.batchSize + data.length <;>
        simp [WriteChunk, h, hs, flushBatch]

lemma wWrite_nil (H : Bytes → Bytes) (f : WFile) : wWrite H f [] = (f, none) := by
  rw [wWrite]
  simp

lemma wWrite_step (H : Bytes → Bytes) (f : WFile) (p : Bytes) (hp : p ≠ [])
    (hrem : f.rem.length < chunkSize) :
    wWrite H f p =
      (let c := min (chunkSize - f.rem.length) p.length
       let f1 : WFile := { f with rem := f.rem ++ p.take c }
       if f1.rem.length = chunkSize then
         match WriteChunk H { f1 with rem := [] } f1.rem with
         | (f2, some e) => (f2, some e)
         | (f2, none) => wWrite H f2 (p.drop c)
       else wWrite H f1 (p.drop c)) := by
  have hc : ¬ (min (chunkSize - f.rem.length) p.length = 0) := by
    have := List.length_pos.mpr hp
    omega
  rw [wWrite]
  simp [hp, hc]

/-- C6 (confirmed): `flushBatch` always leaves the pending set empty and the
byte counter zero — the clearing is unconditional — and hands the underlying
batched write's outcome back to the caller; in particular a scheduled engine
failure is returned as that engine error while the buffer is still
cleared. -/
theorem claim_C6_confirmed (f : WFile) :
    (flushBatch f).1.batch = [] ∧ (flushBatch f).1.batchSize = 0 ∧
    (flushBatch f).2 = (dbWrite f.drv f.batch).2 ∧
    (∀ e rest, f.drv.wfaults = some e :: rest →
      (flushBatch f).2 = some (WErr.engine e)) := by
  refine ⟨rfl, rfl, rfl, ?_⟩
  intro e rest h
  show (dbWrite f.drv f.batch).2 = _
  rw [dbWrite, h]

/-- C6 witness: a concrete buffer flushed against a failing engine write is
still cleared and the failure is returned. -/
theorem claim_C6_witness :
    (flushBatch ⟨⟨fun _ => GetRes.missing, emptyStore, [some 7], [], []⟩,
        [0], [[9]], [([1], [2])], 2, []⟩).1.batch = [] ∧
    (flushBatch ⟨⟨fun _ => GetRes.missing, emptyStore, [some 7], [], []⟩,
        [0], [[9]], [([1], [2])], 2, []⟩).1.batchSize = 0 ∧
    (flushBatch ⟨⟨fun _ => GetRes.missing, emptyStore, [some 7], [], []⟩,
        [0], [[9]], [([1], [2])], 2, []⟩).2 = some (WErr.engine 7) := by
  obtain ⟨h1, h2, _, h4⟩ := claim_C6_confirmed
    ⟨⟨fun _ => GetRes.missing, emptyStore, [some 7], [], []⟩,
      [0], [[9]], [([1], [2])], 2, []⟩
  exact ⟨h1, h2, h4 7 [] rfl⟩

/-- In the inline writer of part_002, a found hash — whatever the length of
the stored value — makes `writeChunk` skip the put, record the hash and
return, its result carrying no error (the Go found path is an unconditional
`return nil`): no length comparison happens. -/
lemma writeChunk0_found (H : Bytes → Bytes) (f : WFile0) (v : Bytes)
    (h : f.chunksSpace (H f.acc) = some v) :
    writeChunk0 H f = { f with acc := [], chunks := f.chunks ++ [H f.acc] } := by
  simp [writeChunk0, h]

/-- C4 (amended): only the batched writer of wfile.go detects hash
collisions.  There a chunk whose hash is already present with a different
stored length makes `WriteChunk` return the distinct `hashCollision` error
with the driver state and pending batch untouched (the chunk is not
written), and — with the chunker feed modelled from the spec — a write whose
first complete chunk collides aborts before processing the following chunk.
The inline writer of part_002 performs no length comparison at all: its
`writeChunk` treats any found hash — mismatched stored length included — as
"chunk already known", records the hash and returns without error (the
embedding's result type has no error component, matching the found path's
unconditional `return nil`) and without touching the chunk space, and the
session always runs to completion, `Close` putting the record that
references every processed chunk. -/
theorem claim_C4_amended (H : Bytes → Bytes) :
    (∀ (f : WFile) (data v : Bytes),
      f.drv.chunks (H data) = GetRes.found v → v.length ≠ data.length →
      WriteChunk H f data =
        ({ f with chunks := f.chunks ++ [H data] }, some .hashCollision)) ∧
    (∀ (f : WFile) (c1 c2 v : Bytes), f.rem = [] →
      c1.length = chunkSize → c2.length = chunkSize →
      f.drv.chunks (H c1) = GetRes.found v → v.length ≠ chunkSize →
      wWrite H f (c1 ++ c2) =
        ({ f with chunks := f.chunks ++ [H c1] }, some .hashCollision)) ∧
    (∀ (f : WFile0) (v : Bytes), f.chunksSpace (H f.acc) = some v →
      writeChunk0 H f =
        { f with acc := [], chunks := f.chunks ++ [H f.acc] }) ∧
    (∀ (cS fS : Store) (fid B : Bytes), chunkSize ≤ B.length →
      (run0 H cS fS fid B).filesSpace fid =
        some (fileRecord ((chunkList B).map H))) := by
  have hpart1 : ∀ (f : WFile) (data v : Bytes),
      f.drv.chunks (H data) = GetRes.found v → v.length ≠ data.length →
      WriteChunk H f data =
        ({ f with chunks := f.chunks ++ [H data] }, some .hashCollision) := by
    intro f data v hfound hne
    simp [WriteChunk, hfound, hne]
  refine ⟨hpart1, ?_, ?_, ?_⟩
  case refine_2 =>
    intro f v h
    exact writeChunk0_found H f v h
  case refine_3 =>
    intro cS fS fid B hbig
    rw [(run0_big H cS fS fid B hbig).1]
    exact storePut_self _ _ _
  intro f c1 c2 v hrem hc1 hc2 hfound hne
  obtain ⟨d, fid, cl, b, bs, r⟩ := f
  simp only at hrem
  subst hrem
  have hple : c1 ++ c2 ≠ [] := by
    intro h
    rcases List.append_eq_nil.mp h with ⟨h1, _⟩
    rw [h1] at hc1
    exact absurd hc1.symm (by simpa using Nat.pos_iff_ne_zero.mp chunkSize_pos)
  rw [wWrite_step H ⟨d, fid, cl, b, bs, []⟩ (c1 ++ c2) hple
    (by simpa using chunkSize_pos)]
  have hmin : min (chunkSize - (([] : Bytes)).length) (c1 ++ c2).length
      = chunkSize := by
    rw [List.length_append, hc1, hc2]
    simp
  simp only [hmin]
  have htake : (c1 ++ c2).take chunkSize = c1 := by
    rw [← hc1, List.take_left]
  simp only [htake, List.nil_append]
  rw [if_pos hc1]
  rw [hpart1 ⟨d, fid, cl, b, bs, []⟩ c1 v hfound (by rw [hc1]; exact hne)]

/-- C4 witness: concrete instances of every conjunct — a pre-seeded
colliding hash aborts a two-chunk batched write; the inline writer accepts a
found hash of mismatched stored length without error; and an inline session
over a chunk space where every key is occupied still completes and writes
its record. -/
theorem claim_C4_witness :
    (fun _ => GetRes.found [9] : Bytes → GetRes)
      (hashE (List.replicate chunkSize 1)) = GetRes.found [9] ∧
    ([9] : Bytes).length ≠ chunkSize ∧
    wWrite hashE
      (newWFile none ⟨fun _ => GetRes.found [9], emptyStore, [], [], []⟩ [0])
      (List.replicate chunkSize 1 ++ List.replicate chunkSize 2) =
      ({ newWFile none ⟨fun _ => GetRes.found [9], emptyStore, [], [], []⟩
          [0] with
          chunks := ([] : List Bytes) ++ [hashE (List.replicate chunkSize 1)] },
        some WErr.hashCollision) ∧
    writeChunk0 hashE
      ⟨fun _ => some [9], emptyStore, [0], [1, 2, 3], []⟩ =
      { (⟨fun _ => some [9], emptyStore, [0], [1, 2, 3], []⟩ : WFile0) with
          acc := ([] : Bytes),
          chunks := ([] : List Bytes) ++ [hashE [1, 2, 3]] } ∧
    (run0 hashE (fun _ => some [9]) emptyStore [0]
        (List.replicate chunkSize 1)).filesSpace [0] =
      some (fileRecord ((chunkList (List.replicate chunkSize 1)).map hashE)) := by
  refine ⟨rfl, by norm_num [chunkSize], ?_, ?_, ?_⟩
  · exact (claim_C4_amended hashE).2.1
      (newWFile none ⟨fun _ => GetRes.found [9], emptyStore, [], [], []⟩ [0])
      (List.replicate chunkSize 1) (List.replicate chunkSize 2) [9]
      rfl (by simp) (by simp) rfl (by norm_num [chunkSize])
  · exact (claim_C4_amended hashE).2.2.1
      ⟨fun _ => some [9], emptyStore, [0], [1, 2, 3], []⟩ [9] rfl
  · exact (claim_C4_amended hashE).2.2.2 (fun _ => some [9]) emptyStore [0]
      (List.replicate chunkSize 1) (by simp)

/-- A one-chunk inline session against a chunk space pre-seeded with an
arbitrary value under the chunk's own hash: the entry survives untouched and
the record is still written. -/
lemma run0_collision_ignored (H : Bytes → Bytes) (B v : Bytes)
    (hbig : chunkSize ≤ B.length) (hone : chunkList B = [B]) :
    (run0 H (storePut emptyStore (H B) v) emptyStore [0] B).chunksSpace
      (H B) = some v ∧
    (run0 H (storePut emptyStore (H B) v) emptyStore [0] B).filesSpace [0] =
      some (fileRecord [H B]) := by
  have h2 := (run0_big H (storePut emptyStore (H B) v) emptyStore [0] B hbig).2
  have h1 := (run0_big H (storePut emptyStore (H B) v) emptyStore [0] B hbig).1
  constructor
  · rw [h2, hone]
    show (writeChunk0 H { newWFile0 (storePut emptyStore (H B) v)
        emptyStore [0] with acc := B }).chunksSpace (H B) = some v
    rw [writeChunk0_found H _ v (storePut_self _ _ _)]
    exact storePut_self _ _ _
  · rw [h1, hone]
    simp only [List.map_cons, List.map_nil]
    exact storePut_self _ _ _

/-- C4 counterexample: against the inline writer of part_002 the original
claim fails.  Pre-seed the chunk space so that the hash of a full 256 KiB
chunk of ones maps to the one-byte value `[5]` — a mismatching length.  The
session completes with no error anywhere (the inline embedding has no error
outcome to produce): the colliding entry still holds `[5]` afterwards —
neither overwritten nor rejected — and the chunk-list record referencing
that hash is written under the file identifier, so no hash-collision error
is ever reported and processing is not aborted. -/
theorem claim_C4_counterexample :
    (storePut emptyStore (hashE (List.replicate chunkSize 1)) [5])
        (hashE (List.replicate chunkSize 1)) = some [5] ∧
    ([5] : Bytes).length ≠ (List.replicate chunkSize 1).length ∧
    (run0 hashE
        (storePut emptyStore (hashE (List.replicate chunkSize 1)) [5])
        emptyStore [0] (List.replicate chunkSize 1)).chunksSpace
        (hashE (List.replicate chunkSize 1)) = some [5] ∧
    (run0 hashE
        (storePut emptyStore (hashE (List.replicate chunkSize 1)) [5])
        emptyStore [0] (List.replicate chunkSize 1)).filesSpace [0] =
      some (fileRecord [hashE (List.replicate chunkSize 1)]) := by
  refine ⟨storePut_self _ _ _,
    by simp only [List.length_replicate]; norm_num [chunkSize], ?_, ?_⟩
  · exact (run0_collision_ignored hashE (List.replicate chunkSize 1) [5]
      (by simp) (chunkList_replicate_one 1)).1
  · exact (run0_collision_ignored hashE (List.replicate chunkSize 1) [5]
      (by simp) (chunkList_replicate_one 1)).2

/-- C5 (amended): an engine error from the existence-check get is
deliberately ignored — `WriteChunk` treats the chunk exactly as not found:
it records the hash, enqueues the chunk for the batched write (so a real
engine failure surfaces from the later put), and returns no error; the get
error itself is never propagated. -/
theorem claim_C5_amended (H : Bytes → Bytes) (f : WFile) (data : Bytes)
    (e : Nat) (hget : f.drv.chunks (H data) = GetRes.fail e)
    (hsize : f.batchSize + data.length < maxBatchSize) :
    WriteChunk H f data =
      ({ f with
          chunks := f.chunks ++ [H data],
          batch := f.batch ++ [(H data, data)],
          batchSize := f.batchSize + data.length }, none) := by
  simp [WriteChunk, hget, Nat.not_le.mpr hsize]

/-- C5 witness: the amended behaviour at a concrete failing get. -/
theorem claim_C5_witness :
    (newWFile none ⟨fun _ => GetRes.fail 7, emptyStore, [], [], []⟩
        [0]).drv.chunks (hashE [1, 2, 3]) = GetRes.fail 7 ∧
    (newWFile none ⟨fun _ => GetRes.fail 7, emptyStore, [], [], []⟩
        [0]).batchSize + ([1, 2, 3] : Bytes).length < maxBatchSize ∧
    WriteChunk hashE
      (newWFile none ⟨fun _ => GetRes.fail 7, emptyStore, [], [], []⟩ [0])
      [1, 2, 3] =
      ({ newWFile none ⟨fun _ => GetRes.fail 7, emptyStore, [], [], []⟩ [0] with
          chunks := ([] : List Bytes) ++ [hashE [1, 2, 3]],
          batch := ([] : List (Bytes × Bytes)) ++ [(hashE [1, 2, 3], [1, 2, 3])],
          batchSize := 0 + ([1, 2, 3] : Bytes).length }, none) := by
  refine ⟨rfl, by decide, ?_⟩
  exact claim_C5_amended hashE
    (newWFile none ⟨fun _ => GetRes.fail 7, emptyStore, [], [], []⟩ [0])
    [1, 2, 3] 7 rfl (by decide)

/-- C5 counterexample: with the chunk-space get failing with engine error 7,
`WriteChunk` returns no error at all — the failure is swallowed and the
chunk is treated as not found (it is enqueued) — refuting the claim that
every non-not-found engine error from the existence check is propagated to
the caller. -/
theorem claim_C5_counterexample :
    (WriteChunk hashE
      (newWFile none ⟨fun _ => GetRes.fail 7, emptyStore, [], [], []⟩ [0])
      [1, 2, 3]).2 = none ∧
    (WriteChunk hashE
      (newWFile none ⟨fun _ => GetRes.fail 7, emptyStore, [], [], []⟩ [0])
      [1, 2, 3]).1.batch = [(hashE [1, 2, 3], [1, 2, 3])] := by
  have hget : (newWFile none ⟨fun _ => GetRes.fail 7, emptyStore, [], [], []⟩
      [0]).drv.chunks (hashE [1, 2, 3]) = GetRes.fail 7 := rfl
  have hsize : ¬ (maxBatchSize ≤ 3) := by decide
  refine ⟨?_, ?_⟩ <;> simp [WriteChunk, hget, hsize, newWFile]

/-- C7 (confirmed): `WriteChunk` appends the chunk's hash to the session's
ordered chunk list in every outcome; a chunk already stored with matching
length is not enqueued or re-put (the state is unchanged apart from the
recorded hash); and writing identical content under two distinct file
identifiers leaves the chunk space exactly as after the first session — one
physical entry per distinct chunk hash, each holding that chunk's own
bytes. -/
theorem claim_C7_confirmed (H : Bytes → Bytes) :
    (∀ (f : WFile) (data : Bytes),
      (WriteChunk H f data).1.chunks = f.chunks ++ [H data]) ∧
    (∀ (f : WFile) (data v : Bytes),
      f.drv.chunks (H data) = GetRes.found v → v.length = data.length →
      WriteChunk H f data =
        ({ f with chunks := f.chunks ++ [H data] }, none)) ∧
    (Function.Injective H → ∀ (cS fS : Store), consistent H cS →
      ∀ (fid1 fid2 B : Bytes),
      (run0 H (run0 H cS fS fid1 B).chunksSpace
          (run0 H cS fS fid1 B).filesSpace fid2 B).chunksSpace =
        (run0 H cS fS fid1 B).chunksSpace ∧
      (chunkSize ≤ B.length →
        ∀ c ∈ chunkList B,
          (run0 H cS fS fid1 B).chunksSpace (H c) = some c)) := by
  refine ⟨WriteChunk_chunks H, ?_, ?_⟩
  · intro f data v hfound hlen
    simp [WriteChunk, hfound, hlen]
  · intro hinj cS fS hcons fid1 fid2 B
    by_cases hsmall : B.length < chunkSize
    · obtain ⟨hf1, hc1⟩ := run0_small H cS fS fid1 B hsmall
      obtain ⟨hf2, hc2⟩ := run0_small H (run0 H cS fS fid1 B).chunksSpace
        (run0 H cS fS fid1 B).filesSpace fid2 B hsmall
      exact ⟨hc2, fun hbig => absurd hbig (Nat.not_le.mpr hsmall)⟩
    · have hbig : chunkSize ≤ B.length := Nat.not_lt.mp hsmall
      have hpres := run0_presence H hinj cS fS hcons fid1 B hbig
      obtain ⟨hf2, hc2⟩ := run0_big H (run0 H cS fS fid1 B).chunksSpace
        (run0 H cS fS fid1 B).filesSpace fid2 B hbig
      refine ⟨?_, fun _ => hpres⟩
      rw [hc2, processBlocks0_noop H (chunkList B)
        (newWFile0 (run0 H cS fS fid1 B).chunksSpace
          (run0 H cS fS fid1 B).filesSpace fid2) hpres]
      rfl

/-- C7 witness: the three parts at concrete inputs — a fresh chunk, a chunk
found with matching length, and a dedup of two sessions writing one
identical 256 KiB chunk. -/
theorem claim_C7_witness :
    ((WriteChunk hashE
        (newWFile none ⟨fun _ => GetRes.missing, emptyStore, [], [], []⟩ [0])
        [1, 2, 3]).1.chunks = ([] : List Bytes) ++ [hashE [1, 2, 3]]) ∧
    ((fun _ => GetRes.found [4, 5, 6] : Bytes → GetRes) (hashE [1, 2, 3]) =
        GetRes.found [4, 5, 6] ∧
      ([4, 5, 6] : Bytes).length = ([1, 2, 3] : Bytes).length ∧
      WriteChunk hashE
        (newWFile none ⟨fun _ => GetRes.found [4, 5, 6], emptyStore, [], [], []⟩
          [0]) [1, 2, 3] =
        ({ newWFile none ⟨fun _ => GetRes.found [4, 5, 6], emptyStore, [], [], []⟩
            [0] with chunks := ([] : List Bytes) ++ [hashE [1, 2, 3]] }, none)) ∧
    Function.Injective hashE ∧ consistent hashE emptyStore ∧
    (run0 hashE (run0 hashE emptyStore emptyStore [0]
        (List.replicate chunkSize 1)).chunksSpace
      (run0 hashE emptyStore emptyStore [0]
        (List.replicate chunkSize 1)).filesSpace [1]
      (List.replicate chunkSize 1)).chunksSpace =
      (run0 hashE emptyStore emptyStore [0]
        (List.replicate chunkSize 1)).chunksSpace ∧
    (run0 hashE emptyStore emptyStore [0]
        (List.replicate chunkSize 1)).chunksSpace
      (hashE (List.replicate chunkSize 1)) = some (List.replicate chunkSize 1) := by
  refine ⟨(claim_C7_confirmed hashE).1 _ [1, 2, 3], ⟨rfl, rfl, ?_⟩,
    hashE_inj, consistent_empty hashE, ?_, ?_⟩
  · exact (claim_C7_confirmed hashE).2.1 _ [1, 2, 3] [4, 5, 6] rfl rfl
  · exact ((claim_C7_confirmed hashE).2.2 hashE_inj emptyStore emptyStore
      (consistent_empty hashE) [0] [1] (List.replicate chunkSize 1)).1
  · exact ((claim_C7_confirmed hashE).2.2 hashE_inj emptyStore emptyStore
      (consistent_empty hashE) [0] [1] (List.replicate chunkSize 1)).2
      (by simp) (List.replicate chunkSize 1)
      (by rw [chunkList_replicate_one]; exact List.mem_singleton.mpr rfl)

lemma wWrite_guard (H : Bytes → Bytes) (f : WFile) (p : Bytes) (hp : p ≠ [])
    (hc : min (chunkSize - f.rem.length) p.length = 0) :
    wWrite H f p = (f, none) := by
  rw [wWrite]
  simp [hp, hc]

lemma wWrite_step2 (H : Bytes → Bytes) (f : WFile) (p : Bytes) (hp : p ≠ [])
    (hrem : f.rem.length < chunkSize) :
    wWrite H f p =
      (if (f.rem ++ p.take (min (chunkSize - f.rem.length) p.length)).length
          = chunkSize then
        match WriteChunk H { f with rem := [] }
            (f.rem ++ p.take (min (chunkSize - f.rem.length) p.length)) with
        | (f2, some e) => (f2, some e)
        | (f2, none) =>
            wWrite H f2 (p.drop (min (chunkSize - f.rem.length) p.length))
      else
        wWrite H
          { f with rem := f.rem ++ p.take (min (chunkSize - f.rem.length) p.length) }
          (p.drop (min (chunkSize - f.rem.length) p.length))) := by
  rw [wWrite_step H f p hp hrem]

/-- Master preservation lemma: any state property carried by the chunk
callback and insensitive to the chunker accumulation survives a whole
`Write` call, on every path. -/
lemma wWrite_all_prop (H : Bytes → Bytes) (P : WFile → Prop)
    (hWC : ∀ f data f' e, WriteChunk H f data = (f', e) → P f → P f')
    (hrem : ∀ (f : WFile) (v : Bytes), P f → P { f with rem := v }) :
    ∀ (n : Nat) (p : Bytes) (f : WFile), p.length ≤ n → P f →
      P (wWrite H f p).1 := by
  intro n
  induction n with
  | zero =>
      intro p f hn hP
      have hp : p = [] := List.eq_nil_of_length_eq_zero (Nat.le_zero.mp hn)
      rw [hp, wWrite_nil]
      exact hP
  | succ n ih =>
      intro p f hn hP
      by_cases hp : p = []
      · rw [hp, wWrite_nil]
        exact hP
      · by_cases hrlt : f.rem.length < chunkSize
        · rw [wWrite_step2 H f p hp hrlt]
          have hplen : 0 < p.length := List.length_pos.mpr hp
          have hcpos : 0 < min (chunkSize - f.rem.length) p.length := by omega
          set c := min (chunkSize - f.rem.length) p.length with hcdef
          have hdn : (p.drop c).length ≤ n := by
            simp only [List.length_drop]
            omega
          by_cases hfull : (f.rem ++ p.take c).length = chunkSize
          · rw [if_pos hfull]
            show P (match WriteChunk H { f with rem := ([] : Bytes) }
                (f.rem ++ p.take c) with
              | (f2, some e) => (f2, some e)
              | (f2, none) => wWrite H f2 (p.drop c)).1
            rcases hwc : WriteChunk H { f with rem := ([] : Bytes) }
                (f.rem ++ p.take c) with ⟨f2, e⟩
            have hP2 : P f2 := hWC _ _ _ _ hwc (hrem f [] hP)
            cases e with
            | none => exact ih (p.drop c) f2 hdn hP2
            | some e0 => exact hP2
          · rw [if_neg hfull]
            exact ih (p.drop c) _ hdn (hrem f (f.rem ++ p.take c) hP)
        · rw [wWrite_guard H f p hp (by omega)]
          exact hP

lemma runWrites_all_prop (H : Bytes → Bytes) (P : WFile → Prop)
    (hWC : ∀ f data f' e, WriteChunk H f data = (f', e) → P f → P f')
    (hrem : ∀ (f : WFile) (v : Bytes), P f → P { f with rem := v }) :
    ∀ (ws : List Bytes) (f : WFile), P f → P (runWrites H f ws).1 := by
  intro ws
  induction ws with
  | nil => intro f hP; exact hP
  | cons p ps ih =>
      intro f hP
      have hw : P (wWrite H f p).1 :=
        wWrite_all_prop H P hWC hrem p.length p f le_rfl hP
      have hr : runWrites H f (p :: ps) =
          (match wWrite H f p with
           | (f1, some e) => (f1, some e)
           | (f1, none) => runWrites H f1 ps) := rfl
      rcases hw2 : wWrite H f p with ⟨f1, e⟩
      rw [hw2] at hw
      rw [hr, hw2]
      cases e with
      | none => exact ih f1 hw
      | some e0 => exact hw

lemma applyBatch_found :
    ∀ (b : List (Bytes × Bytes)) (s : Bytes → GetRes) (h : Bytes),
      (∃ v, s h = GetRes.found v) → ∃ v, applyBatch s b h = GetRes.found v := by
  intro b
  induction b with
  | nil => intro s h hv; exact hv
  | cons p rest ih =>
      intro s h hv
      refine ih _ h ?_
      by_cases hk : h = p.1
      · exact ⟨p.2, by simp [hk]⟩
      · obtain ⟨v, hv⟩ := hv
        exact ⟨v, by simp [hk, hv]⟩

lemma applyBatch_mem :
    ∀ (b : List (Bytes × Bytes)) (s : Bytes → GetRes) (h v : Bytes),
      (h, v) ∈ b → ∃ w, applyBatch s b h = GetRes.found w := by
  intro b
  induction b with
  | nil =>
      intro s h v hm
      simp at hm
  | cons p rest ih =>
      intro s h v hm
      rcases List.mem_cons.mp hm with hm | hm
      · refine applyBatch_found rest _ h ⟨p.2, ?_⟩
        rw [← hm]
        simp
      · exact ih _ h v hm

lemma dbWrite_spec (d : WDrv) (b : List (Bytes × Bytes)) :
    (dbWrite d b).1.files = d.files ∧
    (dbWrite d b).1.log = d.log ++ [Ev.chunkWrite b] ∧
    ((dbWrite d b).2 = none → (dbWrite d b).1.chunks = applyBatch d.chunks b) := by
  rcases hw : d.wfaults with _ | ⟨_ | e, rest⟩ <;> simp [dbWrite, hw]

lemma filesPut_spec (d : WDrv) (k v : Bytes) :
    (filesPut d k v).1.chunks = d.chunks ∧
    (filesPut d k v).1.log = d.log ++ [Ev.filePut k v] ∧
    ((filesPut d k v).2 = none →
      (filesPut d k v).1.files = storePut d.files k v) ∧
    ((filesPut d k v).2 ≠ none → (filesPut d k v).1.files = d.files) := by
  rcases hp : d.pfaults with _ | ⟨_ | e, rest⟩ <;> simp [filesPut, hp]

lemma WriteChunk_eq_found_eq (H : Bytes → Bytes) (f : WFile) (data v : Bytes)
    (hget : f.drv.chunks (H data) = GetRes.found v)
    (hlen : v.length = data.length) :
    WriteChunk H f data = ({ f with chunks := f.chunks ++ [H data] }, none) := by
  simp [WriteChunk, hget, hlen]

lemma WriteChunk_eq_nohit (H : Bytes → Bytes) (f : WFile) (data : Bytes)
    (hget : noHit (f.drv.chunks (H data)))
    (hsize : ¬ maxBatchSize ≤ f.batchSize + data.length) :
    WriteChunk H f data =
      ({ f with
          chunks := f.chunks ++ [H data],
          batch := f.batch ++ [(H data, data)],
          batchSize := f.batchSize + data.length }, none) := by
  cases hg : f.drv.chunks (H data) with
  | found v => rw [hg] at hget; exact absurd hget not_false
  | missing => simp [WriteChunk, hg, hsize]
  | fail e => simp [WriteChunk, hg, hsize]

lemma WriteChunk_eq_nohit_flush (H : Bytes → Bytes) (f : WFile) (data : Bytes)
    (hget : noHit (f.drv.chunks (H data)))
    (hsize : maxBatchSize ≤ f.batchSize + data.length) :
    WriteChunk H f data =
      flushBatch
        { f with
          chunks := f.chunks ++ [H data],
          batch := f.batch ++ [(H data, data)],
          batchSize := f.batchSize + data.length } := by
  cases hg : f.drv.chunks (H data) with
  | found v => rw [hg] at hget; exact absurd hget not_false
  | missing => simp [WriteChunk, hg, hsize]
  | fail e => simp [WriteChunk, hg, hsize]

lemma WriteChunk_eq_found_ne (H : Bytes → Bytes) (f : WFile) (data v : Bytes)
    (hget : f.drv.chunks (H data) = GetRes.found v)
    (hlen : v.length ≠ data.length) :
    WriteChunk H f data =
      ({ f with chunks := f.chunks ++ [H data] }, some .hashCollision) := by
  simp [WriteChunk, hget, hlen]

/-- The driver-level footprint of one `WriteChunk`: the files space and the
session identifier are untouched, and any logged events are batched chunk
writes, never files puts. -/
lemma WriteChunk_delta (H : Bytes → Bytes) (f : WFile) (data : Bytes) :
    (WriteChunk H f data).1.drv.files = f.drv.files ∧
    (WriteChunk H f data).1.id = f.id ∧
    (∃ Δ, (WriteChunk H f data).1.drv.log = f.drv.log ++ Δ ∧
      Δ.filter isFilePut = []) := by
  cases hg : f.drv.chunks (H data) with
  | found v =>
      by_cases hl : v.length ≠ data.length
      · rw [WriteChunk_eq_found_ne H f data v hg hl]
        exact ⟨rfl, rfl, [], by simp, rfl⟩
      · rw [WriteChunk_eq_found_eq H f data v hg (Classical.not_not.mp hl)]
        exact ⟨rfl, rfl, [], by simp, rfl⟩
  | missing =>
      by_cases hs : maxBatchSize ≤ f.batchSize + data.length
      · rw [WriteChunk_eq_nohit_flush H f data (by rw [hg]; trivial) hs]
        obtain ⟨h1, h2, _⟩ := dbWrite_spec f.drv (f.batch ++ [(H data, data)])
        exact ⟨h1, rfl, [Ev.chunkWrite (f.batch ++ [(H data, data)])],
          h2, by simp [isFilePut]⟩
      · rw [WriteChunk_eq_nohit H f data (by rw [hg]; trivial) hs]
        exact ⟨rfl, rfl, [], by simp, rfl⟩
  | fail e =>
      by_cases hs : maxBatchSize ≤ f.batchSize + data.length
      · rw [WriteChunk_eq_nohit_flush H f data (by rw [hg]; trivial) hs]
        obtain ⟨h1, h2, _⟩ := dbWrite_spec f.drv (f.batch ++ [(H data, data)])
        exact ⟨h1, rfl, [Ev.chunkWrite (f.batch ++ [(H data, data)])],
          h2, by simp [isFilePut]⟩
      · rw [WriteChunk_eq_nohit H f data (by rw [hg]; trivial) hs]
        exact ⟨rfl, rfl, [], by simp, rfl⟩

/-- Both not-found-like get outcomes preserve coverage. -/
lemma WriteChunk_covered_nohit (H : Bytes → Bytes) (f : WFile) (data : Bytes)
    (f' : WFile) (hwc : WriteChunk H f data = (f', none))
    (hcov : chunksCovered f) (hget : noHit (f.drv.chunks (H data))) :
    chunksCovered f' := by
  by_cases hs : maxBatchSize ≤ f.batchSize + data.length
  · rw [WriteChunk_eq_nohit_flush H f data hget hs] at hwc
    obtain ⟨h1, h2, h3⟩ := dbWrite_spec f.drv (f.batch ++ [(H data, data)])
    have hok : (dbWrite f.drv (f.batch ++ [(H data, data)])).2 = none := by
      have := congrArg Prod.snd hwc
      simpa [flushBatch] using this
    have hchst := h3 hok
    have hf' : f' = (flushBatch
        { f with
          chunks := f.chunks ++ [H data],
          batch := f.batch ++ [(H data, data)],
          batchSize := f.batchSize + data.length }).1 :=
      (congrArg Prod.fst hwc).symm
    intro h hm
    have hm' : h ∈ f.chunks ++ [H data] := by
      rw [hf'] at hm
      exact hm
    left
    have hstore : f'.drv.chunks =
        applyBatch f.drv.chunks (f.batch ++ [(H data, data)]) := by
      rw [hf']
      exact hchst
    rw [hstore]
    rcases List.mem_append.mp hm' with hm2 | hm2
    · rcases hcov h hm2 with hfound | ⟨v, hv⟩
      · exact applyBatch_found _ _ h hfound
      · exact applyBatch_mem _ _ h v (List.mem_append_left _ hv)
    · refine applyBatch_mem _ _ h data (List.mem_append_right _ ?_)
      rw [List.mem_singleton.mp hm2]
      simp
  · rw [WriteChunk_eq_nohit H f data hget hs] at hwc
    obtain rfl : ({ f with
        chunks := f.chunks ++ [H data],
        batch := f.batch ++ [(H data, data)],
        batchSize := f.batchSize + data.length } : WFile) = f' :=
      congrArg Prod.fst hwc
    intro h hm
    rcases List.mem_append.mp hm with hm | hm
    · rcases hcov h hm with hfound | ⟨v, hv⟩
      · exact Or.inl hfound
      · exact Or.inr ⟨v, List.mem_append_left _ hv⟩
    · exact Or.inr ⟨data, List.mem_append_right _ (by
        rw [List.mem_singleton.mp hm]; simp)⟩

/-- A successful `WriteChunk` keeps every recorded hash covered. -/
lemma WriteChunk_covered (H : Bytes → Bytes) :
    ∀ (f : WFile) (data : Bytes) (f' : WFile),
      WriteChunk H f data = (f', none) → chunksCovered f → chunksCovered f' := by
  intro f data f' hwc hcov
  cases hg : f.drv.chunks (H data) with
  | found v =>
      by_cases hl : v.length ≠ data.length
      · rw [WriteChunk_eq_found_ne H f data v hg hl] at hwc
        exact absurd (congrArg Prod.snd hwc) (by simp)
      · rw [WriteChunk_eq_found_eq H f data v hg (Classical.not_not.mp hl)] at hwc
        obtain rfl : ({ f with chunks := f.chunks ++ [H data] } : WFile) = f' :=
          congrArg Prod.fst hwc
        intro h hm
        rcases List.mem_append.mp hm with hm | hm
        · exact hcov h hm
        · exact Or.inl ⟨v, by rw [List.mem_singleton.mp hm]; exact hg⟩
  | missing =>
      exact WriteChunk_covered_nohit H f data f' hwc hcov (by rw [hg]; trivial)
  | fail e =>
      exact WriteChunk_covered_nohit H f data f' hwc hcov (by rw [hg]; trivial)

/-- Success-conditioned master preservation lemma for one `Write` call. -/
lemma wWrite_ok_prop (H : Bytes → Bytes) (P : WFile → Prop)
    (hWC : ∀ f data f', WriteChunk H f data = (f', none) → P f → P f')
    (hrem : ∀ (f : WFile) (v : Bytes), P f → P { f with rem := v }) :
    ∀ (n : Nat) (p : Bytes) (f : WFile), p.length ≤ n → P f →
      (wWrite H f p).2 = none → P (wWrite H f p).1 := by
  intro n
  induction n with
  | zero =>
      intro p f hn hP _
      have hp : p = [] := List.eq_nil_of_length_eq_zero (Nat.le_zero.mp hn)
      rw [hp, wWrite_nil]
      exact hP
  | succ n ih =>
      intro p f hn hP hok
      by_cases hp : p = []
      · rw [hp, wWrite_nil]
        exact hP
      · by_cases hrlt : f.rem.length < chunkSize
        · rw [wWrite_step2 H f p hp hrlt] at hok ⊢
          have hplen : 0 < p.length := List.length_pos.mpr hp
          have hcpos : 0 < min (chunkSize - f.rem.length) p.length := by omega
          set c := min (chunkSize - f.rem.length) p.length with hcdef
          have hdn : (p.drop c).length ≤ n := by
            simp only [List.length_drop]
            omega
          by_cases hfull : (f.rem ++ p.take c).length = chunkSize
          · rw [if_pos hfull] at hok ⊢
            have hshown := hok
            show P (match WriteChunk H { f with rem := ([] : Bytes) }
                (f.rem ++ p.take c) with
              | (f2, some e) => (f2, some e)
              | (f2, none) => wWrite H f2 (p.drop c)).1
            rcases hwc : WriteChunk H { f with rem := ([] : Bytes) }
                (f.rem ++ p.take c) with ⟨f2, e⟩
            rw [hwc] at hshown
            cases e with
            | none =>
                exact ih (p.drop c) f2 hdn
                  (hWC _ _ _ hwc (hrem f [] hP)) hshown
            | some e0 => simp at hshown
          · rw [if_neg hfull] at hok ⊢
            exact ih (p.drop c) _ hdn (hrem f (f.rem ++ p.take c) hP) hok
        · rw [wWrite_guard H f p hp (by omega)]
          exact hP

lemma runWrites_ok_prop (H : Bytes → Bytes) (P : WFile → Prop)
    (hWC : ∀ f data f', WriteChunk H f data = (f', none) → P f → P f')
    (hrem : ∀ (f : WFile) (v : Bytes), P f → P { f with rem := v }) :
    ∀ (ws : List Bytes) (f : WFile), P f → (runWrites H f ws).2 = none →
      P (runWrites H f ws).1 := by
  intro ws
  induction ws with
  | nil => intro f hP _; exact hP
  | cons p ps ih =>
      intro f hP hok
      have hr : runWrites H f (p :: ps) =
          (match wWrite H f p with
           | (f1, some e) => (f1, some e)
           | (f1, none) => runWrites H f1 ps) := rfl
      rw [hr] at hok ⊢
      rcases hw2 : wWrite H f p with ⟨f1, e⟩
      rw [hw2] at hok
      cases e with
      | none =>
          have hP1 : P f1 := by
            have := wWrite_ok_prop H P hWC hrem p.length p f le_rfl hP
              (by rw [hw2])
            rwa [hw2] at this
          exact ih f1 hP1 hok
      | some e0 => simp at hok

lemma closeStep1_facts (H : Bytes → Bytes) (f f1 : WFile) (e1 : Option WErr)
    (hstep : (if 0 < f.rem.length then chunkerFlush H f else (f, none))
      = (f1, e1)) :
    f1.id = f.id ∧ f1.drv.files = f.drv.files ∧
    (∃ Δ, f1.drv.log = f.drv.log ++ Δ ∧ Δ.filter isFilePut = []) ∧
    (e1 = none → chunksCovered f → chunksCovered f1) := by
  by_cases hr : 0 < f.rem.length
  · rw [if_pos hr] at hstep
    have hf1 : (chunkerFlush H f).1 = f1 := by rw [hstep]
    obtain ⟨h1, h2, h3⟩ := WriteChunk_delta H { f with rem := [] } f.rem
    refine ⟨?_, ?_, ?_, ?_⟩
    · rw [← hf1]
      exact h2
    · rw [← hf1]
      exact h1
    · rw [← hf1]
      exact h3
    · intro he hcov
      rw [he] at hstep
      exact WriteChunk_covered H { f with rem := [] } f.rem f1 hstep hcov
  · rw [if_neg hr] at hstep
    injection hstep with hA hB
    subst hA
    exact ⟨rfl, rfl, ⟨[], by simp, rfl⟩, fun _ h => h⟩

lemma flushBatch_facts (f1 f2 : WFile) (e2 : Option WErr)
    (hfl : flushBatch f1 = (f2, e2)) :
    f2.id = f1.id ∧ f2.chunks = f1.chunks ∧ f2.batch = [] ∧ f2.batchSize = 0 ∧
    f2.drv.files = f1.drv.files ∧
    f2.drv.log = f1.drv.log ++ [Ev.chunkWrite f1.batch] ∧
    (e2 = none → f2.drv.chunks = applyBatch f1.drv.chunks f1.batch) := by
  have hf2 : (flushBatch f1).1 = f2 := by rw [hfl]
  have he2 : (flushBatch f1).2 = e2 := by rw [hfl]
  obtain ⟨hd1, hd2, hd3⟩ := dbWrite_spec f1.drv f1.batch
  refine ⟨by rw [← hf2]; rfl, by rw [← hf2]; rfl, by rw [← hf2]; rfl,
    by rw [← hf2]; rfl, ?_, ?_, ?_⟩
  · rw [← hf2]
    exact hd1
  · rw [← hf2]
    exact hd2
  · intro he
    rw [← hf2]
    exact hd3 (by rw [← he, ← he2]; rfl)

lemma flush_presence (f1 f2 : WFile) (hfl : flushBatch f1 = (f2, none))
    (hcov : chunksCovered f1) :
    ∀ h ∈ f2.chunks, ∃ v, f2.drv.chunks h = GetRes.found v := by
  obtain ⟨_, hch, _, _, _, _, hst⟩ := flushBatch_facts f1 f2 none hfl
  intro h hm
  rw [hch] at hm
  rw [hst rfl]
  rcases hcov h hm with hfound | ⟨v, hv⟩
  · exact applyBatch_found _ _ h hfound
  · exact applyBatch_mem _ _ h v hv

lemma wClose_eq_inline (H : Bytes → Bytes) (f : WFile) (h1 : 0 < f.rem.length)
    (h2 : f.chunks = []) :
    wClose H f =
      ⟨{ f with drv := (filesPut f.drv f.id (putUint32 0 ++ f.rem)).1 },
        (filesPut f.drv f.id (putUint32 0 ++ f.rem)).2, some f⟩ := by
  rw [wClose, if_pos ⟨h1, h2⟩]

lemma wClose_eq_err1 (H : Bytes → Bytes) (f f1 : WFile) (e : WErr)
    (hcond : ¬ (0 < f.rem.length ∧ f.chunks = []))
    (hstep : (if 0 < f.rem.length then chunkerFlush H f else (f, none))
      = (f1, some e)) :
    wClose H f = ⟨f1, some e, none⟩ := by
  rw [wClose, if_neg hcond, hstep]

lemma wClose_eq_err2 (H : Bytes → Bytes) (f f1 f2 : WFile) (e : WErr)
    (hcond : ¬ (0 < f.rem.length ∧ f.chunks = []))
    (hstep : (if 0 < f.rem.length then chunkerFlush H f else (f, none))
      = (f1, none))
    (hfl : flushBatch f1 = (f2, some e)) :
    wClose H f = ⟨f2, some e, none⟩ := by
  rw [wClose, if_neg hcond, hstep]
  show (match flushBatch f1 with
    | (g, some e) => ({ f := g, err := some e, pooled := none } : CloseOut)
    | (g, none) =>
        { f := { g with drv := (filesPut g.drv g.id (fileRecord g.chunks)).1 },
          err := (filesPut g.drv g.id (fileRecord g.chunks)).2,
          pooled := some g }) = _
  rw [hfl]

lemma wClose_eq_chunkpath (H : Bytes → Bytes) (f f1 f2 : WFile)
    (hcond : ¬ (0 < f.rem.length ∧ f.chunks = []))
    (hstep : (if 0 < f.rem.length then chunkerFlush H f else (f, none))
      = (f1, none))
    (hfl : flushBatch f1 = (f2, none)) :
    wClose H f =
      ⟨{ f2 with drv := (filesPut f2.drv f2.id (fileRecord f2.chunks)).1 },
        (filesPut f2.drv f2.id (fileRecord f2.chunks)).2, some f2⟩ := by
  rw [wClose, if_neg hcond, hstep]
  show (match flushBatch f1 with
    | (g, some e) => ({ f := g, err := some e, pooled := none } : CloseOut)
    | (g, none) =>
        { f := { g with drv := (filesPut g.drv g.id (fileRecord g.chunks)).1 },
          err := (filesPut g.drv g.id (fileRecord g.chunks)).2,
          pooled := some g }) = _
  rw [hfl]

/-- Close-level guarantees: at most one files put is added to the log; a
successful close leaves the record under the session's identifier with every
referenced hash present in the chunk space; a failed close leaves the files
space untouched. -/
lemma wClose_spec (H : Bytes → Bytes) (f : WFile) (hcov : chunksCovered f) :
    ((wClose H f).f.drv.log.filter isFilePut).length
      ≤ (f.drv.log.filter isFilePut).length + 1 ∧
    ((wClose H f).err = none →
      ∃ r, (wClose H f).f.drv.files f.id = some r ∧
        (wClose H f).f.drv.log.filter isFilePut
          = f.drv.log.filter isFilePut ++ [Ev.filePut f.id r] ∧
        ∀ h ∈ (wClose H f).f.chunks, ∃ v,
          (wClose H f).f.drv.chunks h = GetRes.found v) ∧
    ((wClose H f).err ≠ none → (wClose H f).f.drv.files = f.drv.files) := by
  by_cases hin : 0 < f.rem.length ∧ f.chunks = []
  · rw [wClose_eq_inline H f hin.1 hin.2]
    obtain ⟨hp1, hp2, hp3, hp4⟩ :=
      filesPut_spec f.drv f.id (putUint32 0 ++ f.rem)
    refine ⟨?_, ?_, ?_⟩
    · show (((filesPut f.drv f.id (putUint32 0 ++ f.rem)).1.log).filter
        isFilePut).length ≤ _
      rw [hp2, List.filter_append]
      simp [isFilePut]
    · intro hok
      refine ⟨putUint32 0 ++ f.rem, ?_, ?_, ?_⟩
      · show (filesPut f.drv f.id (putUint32 0 ++ f.rem)).1.files f.id = _
        rw [hp3 hok, storePut_self]
      · show ((filesPut f.drv f.id (putUint32 0 ++ f.rem)).1.log).filter
          isFilePut = _
        rw [hp2, List.filter_append]
        simp [isFilePut]
      · intro h hm
        rw [hin.2] at hm
        simp at hm
    · intro hbad
      show (filesPut f.drv f.id (putUint32 0 ++ f.rem)).1.files = f.drv.files
      exact hp4 hbad
  · rcases hstep : (if 0 < f.rem.length then chunkerFlush H f else (f, none))
      with ⟨f1, e1⟩
    obtain ⟨hs1, hs2, ⟨Δ1, hs3, hs4⟩, hs5⟩ := closeStep1_facts H f f1 e1 hstep
    cases e1 with
    | some e =>
        rw [wClose_eq_err1 H f f1 e hin hstep]
        refine ⟨?_, by intro h; exact absurd h (by simp), fun _ => hs2⟩
        rw [hs3, List.filter_append, hs4]
        simp
    | none =>
        have hcov1 : chunksCovered f1 := hs5 rfl hcov
        rcases hfl : flushBatch f1 with ⟨f2, e2⟩
        obtain ⟨ht1, ht2, ht3, ht4, ht5, ht6, ht7⟩ :=
          flushBatch_facts f1 f2 e2 hfl
        cases e2 with
        | some e =>
            rw [wClose_eq_err2 H f f1 f2 e hin hstep hfl]
            refine ⟨?_, by intro h; exact absurd h (by simp), ?_⟩
            · rw [ht6, hs3, List.filter_append, List.filter_append, hs4]
              simp [isFilePut]
            · intro _
              rw [ht5, hs2]
        | none =>
            rw [wClose_eq_chunkpath H f f1 f2 hin hstep hfl]
            obtain ⟨hp1, hp2, hp3, hp4⟩ :=
              filesPut_spec f2.drv f2.id (fileRecord f2.chunks)
            have hfid : f2.id = f.id := by rw [ht1, hs1]
            refine ⟨?_, ?_, ?_⟩
            · show (((filesPut f2.drv f2.id (fileRecord f2.chunks)).1.log).filter
                isFilePut).length ≤ _
              rw [hp2, ht6, hs3, List.filter_append, List.filter_append,
                List.filter_append, hs4]
              simp [isFilePut]
            · intro hok
              refine ⟨fileRecord f2.chunks, ?_, ?_, ?_⟩
              · show (filesPut f2.drv f2.id (fileRecord f2.chunks)).1.files f.id
                  = _
                rw [hp3 hok, ← hfid, storePut_self]
              · show ((filesPut f2.drv f2.id (fileRecord f2.chunks)).1.log).filter
                  isFilePut = _
                rw [hp2, ht6, hs3, List.filter_append, List.filter_append,
                  List.filter_append, hs4, hfid]
                simp [isFilePut]
              · intro h hm
                have hm2 : h ∈ f2.chunks := hm
                have hpres := flush_presence f1 f2 hfl hcov1 h hm2
                show ∃ v, (filesPut f2.drv f2.id (fileRecord f2.chunks)).1.chunks h
                  = GetRes.found v
                rw [hp1]
                exact hpres
            · intro hbad
              show (filesPut f2.drv f2.id (fileRecord f2.chunks)).1.files
                = f.drv.files
              rw [hp4 hbad, ht5, hs2]

/-- The state handed to the pool by `Close` always carries an empty batch,
given the session invariant that a chunk-free session has touched neither
the batch nor its counter. -/
lemma wClose_pooled (H : Bytes → Bytes) (f : WFile)
    (hinv : f.chunks = [] → f.batch = [] ∧ f.batchSize = 0) :
    batchClear (wClose H f).pooled := by
  by_cases hin : 0 < f.rem.length ∧ f.chunks = []
  · rw [wClose_eq_inline H f hin.1 hin.2]
    exact hinv hin.2
  · rcases hstep : (if 0 < f.rem.length then chunkerFlush H f else (f, none))
      with ⟨f1, e1⟩
    cases e1 with
    | some e =>
        rw [wClose_eq_err1 H f f1 e hin hstep]
        trivial
    | none =>
        rcases hfl : flushBatch f1 with ⟨f2, e2⟩
        obtain ⟨_, _, ht3, ht4, _, _, _⟩ := flushBatch_facts f1 f2 e2 hfl
        cases e2 with
        | some e =>
            rw [wClose_eq_err2 H f f1 f2 e hin hstep hfl]
            trivial
        | none =>
            rw [wClose_eq_chunkpath H f f1 f2 hin hstep hfl]
            exact ⟨ht3, ht4⟩

/-- C8 (confirmed): in every session the files-space key is put at most
once; when `close()` succeeds the record sits under the session identifier,
it is the only files put of the session, and every hash it references is
present in the chunk space (confirmed pre-existing or flushed); when the
session fails, the files space is exactly as before. -/
theorem claim_C8_confirmed (H : Bytes → Bytes) (d : WDrv) (fid : Bytes)
    (ws : List Bytes) (hlog : d.log = []) :
    (((runSession H d fid ws).f.drv.log.filter isFilePut).length ≤ 1) ∧
    ((runSession H d fid ws).err = none →
      ∃ r, (runSession H d fid ws).f.drv.files fid = some r ∧
        (runSession H d fid ws).f.drv.log.filter isFilePut
          = [Ev.filePut fid r] ∧
        ∀ h ∈ (runSession H d fid ws).f.chunks, ∃ v,
          (runSession H d fid ws).f.drv.chunks h = GetRes.found v) ∧
    ((runSession H d fid ws).err ≠ none →
      (runSession H d fid ws).f.drv.files = d.files) := by
  have hWC1 : ∀ (f : WFile) (data : Bytes) (f' : WFile) (e : Option WErr),
      WriteChunk H f data = (f', e) →
      (f.id = fid ∧ f.drv.files = d.files ∧
        f.drv.log.filter isFilePut = []) →
      (f'.id = fid ∧ f'.drv.files = d.files ∧
        f'.drv.log.filter isFilePut = []) := by
    intro f data f' e hwc ⟨hP1, hP2, hP3⟩
    obtain ⟨hd1, hd2, Δ, hd3, hd4⟩ := WriteChunk_delta H f data
    have hf' : (WriteChunk H f data).1 = f' := by rw [hwc]
    rw [hf'] at hd1 hd2 hd3
    exact ⟨by rw [hd2, hP1], by rw [hd1, hP2],
      by rw [hd3, List.filter_append, hP3, hd4]; rfl⟩
  have hrem1 : ∀ (f : WFile) (v : Bytes),
      (f.id = fid ∧ f.drv.files = d.files ∧
        f.drv.log.filter isFilePut = []) →
      ((({ f with rem := v } : WFile)).id = fid ∧
        (({ f with rem := v } : WFile)).drv.files = d.files ∧
        (({ f with rem := v } : WFile)).drv.log.filter isFilePut = []) :=
    fun _ _ h => h
  have hfresh1 : (newWFile none d fid).id = fid ∧
      (newWFile none d fid).drv.files = d.files ∧
      (newWFile none d fid).drv.log.filter isFilePut = [] := by
    refine ⟨rfl, rfl, ?_⟩
    show d.log.filter isFilePut = []
    rw [hlog]
    rfl
  have hrsn : runSession H d fid ws =
      (match runWrites H (newWFile none d fid) ws with
       | (f1, some e) => ⟨f1, some e, none⟩
       | (f1, none) => wClose H f1) := rfl
  rw [hrsn]
  rcases hrw : runWrites H (newWFile none d fid) ws with ⟨f1, e⟩
  have hP1 : f1.id = fid ∧ f1.drv.files = d.files ∧
      f1.drv.log.filter isFilePut = [] := by
    have := runWrites_all_prop H _ hWC1 hrem1 ws (newWFile none d fid) hfresh1
    rwa [hrw] at this
  cases e with
  | some e0 =>
      refine ⟨?_, ?_, ?_⟩
      · show ((f1.drv.log.filter isFilePut).length ≤ 1)
        rw [hP1.2.2]
        simp
      · intro h
        exact absurd h (by simp)
      · intro _
        exact hP1.2.1
  | none =>
      have hred : (match ((f1, none) : WFile × Option WErr) with
          | (f1, some e) => (⟨f1, some e, none⟩ : CloseOut)
          | (f1, none) => wClose H f1) = wClose H f1 := rfl
      rw [hred]
      have hcov1 : chunksCovered f1 := by
        have := runWrites_ok_prop H chunksCovered
          (fun f data f' hwc hc => WriteChunk_covered H f data f' hwc hc)
          (fun f v hc => hc) ws (newWFile none d fid)
          (by intro h hm; simp [newWFile] at hm) (by rw [hrw])
        rwa [hrw] at this
      obtain ⟨hc1, hc2, hc3⟩ := wClose_spec H f1 hcov1
      refine ⟨?_, ?_, fun hb => by rw [hc3 hb, hP1.2.1]⟩
      · calc ((wClose H f1).f.drv.log.filter isFilePut).length
            ≤ (f1.drv.log.filter isFilePut).length + 1 := hc1
          _ ≤ 1 := by rw [hP1.2.2]; simp
      · intro hok
        obtain ⟨r, hr1, hr2, hr3⟩ := hc2 hok
        refine ⟨r, ?_, ?_, hr3⟩
        · rw [← hP1.1]
          exact hr1
        · rw [hr2, hP1.2.2, hP1.1]
          rfl

/-- C8 witness: a concrete one-write session against a fresh driver, plus a
successfully closed empty session showing the single files put with its
referenced hashes present. -/
theorem claim_C8_witness :
    (⟨fun _ => GetRes.missing, emptyStore, [], [], []⟩ : WDrv).log = [] ∧
    (((runSession hashE ⟨fun _ => GetRes.missing, emptyStore, [], [], []⟩
        [0] [[1, 2, 3]]).f.drv.log.filter isFilePut).length ≤ 1) ∧
    (runSession hashE ⟨fun _ => GetRes.missing, emptyStore, [], [], []⟩
        [0] []).err = none ∧
    (∃ r, (runSession hashE ⟨fun _ => GetRes.missing, emptyStore, [], [], []⟩
        [0] []).f.drv.files [0] = some r ∧
      (runSession hashE ⟨fun _ => GetRes.missing, emptyStore, [], [], []⟩
        [0] []).f.drv.log.filter isFilePut = [Ev.filePut [0] r] ∧
      ∀ h ∈ (runSession hashE ⟨fun _ => GetRes.missing, emptyStore, [], [], []⟩
          [0] []).f.chunks, ∃ v,
        (runSession hashE ⟨fun _ => GetRes.missing, emptyStore, [], [], []⟩
          [0] []).f.drv.chunks h = GetRes.found v) := by
  refine ⟨rfl, ?_, rfl, ?_⟩
  · exact (claim_C8_confirmed hashE
      ⟨fun _ => GetRes.missing, emptyStore, [], [], []⟩ [0] [[1, 2, 3]] rfl).1
  · exact (claim_C8_confirmed hashE
      ⟨fun _ => GetRes.missing, emptyStore, [], [], []⟩ [0] [] rfl).2.1 rfl

/-- C10 (confirmed): a recycled session whose pending batch is empty (which
the pool invariant guarantees) is, after `newWFile`'s reset, literally the
fresh session state — chunk list empty, boundary accumulation reset, batch
empty with zero counter — and every session `close()` hands to the pool has
an empty batch and zero counter. -/
theorem claim_C10_confirmed (H : Bytes → Bytes) (d : WDrv) (fid : Bytes)
    (ws : List Bytes) (w : WFile) :
    (w.batch = [] → w.batchSize = 0 →
      newWFile (some w) d fid = newWFile none d fid) ∧
    batchClear (runSession H d fid ws).pooled := by
  constructor
  · intro h1 h2
    obtain ⟨wd, wi, wc, wb, ws0, wr⟩ := w
    simp only at h1 h2
    subst h1
    subst h2
    rfl
  · have hWC2 : ∀ (f : WFile) (data : Bytes) (f' : WFile) (e : Option WErr),
        WriteChunk H f data = (f', e) →
        (f.chunks = [] → f.batch = [] ∧ f.batchSize = 0) →
        (f'.chunks = [] → f'.batch = [] ∧ f'.batchSize = 0) := by
      intro f data f' e hwc _ hch
      have hf' : (WriteChunk H f data).1 = f' := by rw [hwc]
      rw [← hf', WriteChunk_chunks] at hch
      exact absurd hch (by simp)
    have hrsn : runSession H d fid ws =
        (match runWrites H (newWFile none d fid) ws with
         | (f1, some e) => ⟨f1, some e, none⟩
         | (f1, none) => wClose H f1) := rfl
    rw [hrsn]
    rcases hrw : runWrites H (newWFile none d fid) ws with ⟨f1, e⟩
    have hinv : f1.chunks = [] → f1.batch = [] ∧ f1.batchSize = 0 := by
      have := runWrites_all_prop H _ hWC2 (fun f v h => h) ws
        (newWFile none d fid) (fun _ => ⟨rfl, rfl⟩)
      rwa [hrw] at this
    cases e with
    | some e0 => trivial
    | none => exact wClose_pooled H f1 hinv

/-- C10 witness: a junk-carrying released session with an empty batch
recycles to exactly the fresh state, and a concrete session pools a
batch-clear state. -/
theorem claim_C10_witness :
    ((⟨⟨fun _ => GetRes.missing, emptyStore, [], [], []⟩, [5], [[9]], [], 0,
        [7]⟩ : WFile)).batch = [] ∧
    ((⟨⟨fun _ => GetRes.missing, emptyStore, [], [], []⟩, [5], [[9]], [], 0,
        [7]⟩ : WFile)).batchSize = 0 ∧
    newWFile (some ⟨⟨fun _ => GetRes.missing, emptyStore, [], [], []⟩, [5],
        [[9]], [], 0, [7]⟩)
      ⟨fun _ => GetRes.missing, emptyStore, [], [], []⟩ [0] =
      newWFile none ⟨fun _ => GetRes.missing, emptyStore, [], [], []⟩ [0] ∧
    batchClear (runSession hashE
      ⟨fun _ => GetRes.missing, emptyStore, [], [], []⟩ [0] [[1, 2, 3]]).pooled := by
  refine ⟨rfl, rfl, ?_, ?_⟩
  · exact (claim_C10_confirmed hashE
      ⟨fun _ => GetRes.missing, emptyStore, [], [], []⟩ [0] [[1, 2, 3]]
      ⟨⟨fun _ => GetRes.missing, emptyStore, [], [], []⟩, [5], [[9]], [], 0,
        [7]⟩).1 rfl rfl
  · exact (claim_C10_confirmed hashE
      ⟨fun _ => GetRes.missing, emptyStore, [], [], []⟩ [0] [[1, 2, 3]]
      ⟨⟨fun _ => GetRes.missing, emptyStore, [], [], []⟩, [5], [[9]], [], 0,
        [7]⟩).2

end Gondola
